import Mathlib

/-!
Verification development for the finalytics computation core.

The repository surface visible here (the client example `test.py` and the
documentation configuration) exercises a financial-analytics core: return
computation, risk statistics, covariance estimation, constrained portfolio
optimization, and an implied-volatility surface.  The implementation of that
core is not part of the visible sources, so every definition below is a
shallow embedding modelled from the specification, over exact rational
arithmetic (ℚ) in place of floating point.  All definitions are computable.
-/

namespace Finalytics

/-- Modelled from the spec: the error kinds of the core (spec section 7).
The implementation is missing from the visible sources. -/
inductive FinError
  | insufficientData
  | insufficientOverlap
  | invalidParameter
  | infeasibleConstraints
  | noConvergence
deriving DecidableEq, Repr

/-! ## ReturnSeries (spec section 4.1) -/

/-- Modelled from the spec: a return series together with the count of
points dropped because of a zero denominator (spec section 4.1); the
implementation is missing from the visible sources. -/
structure ReturnSeries where
  returns : List ℚ
  droppedPoints : Nat
deriving DecidableEq, Repr

/-- Modelled from the spec: simple period returns from consecutive prices;
a pair whose denominator (the earlier price) is zero is skipped and counted
as dropped (spec section 4.1).  The implementation is missing from the
visible sources. -/
def computeReturns : List ℚ → List ℚ × Nat
  | [] => ([], 0)
  | [_] => ([], 0)
  | p :: q :: rest =>
      let tail := computeReturns (q :: rest)
      if p = 0 then (tail.1, tail.2 + 1) else ((q / p - 1) :: tail.1, tail.2)

/-- Modelled from the spec: building a `ReturnSeries` from a close-price
series, failing with `InsufficientDataError` on fewer than two points
(spec section 4.1).  The logarithmic return kind needs a real logarithm and
is outside this rational model; the model fixes the simple-return kind.
The implementation is missing from the visible sources. -/
def buildReturnSeries (prices : List ℚ) : Except FinError ReturnSeries :=
  if prices.length < 2 then .error .insufficientData
  else .ok ⟨(computeReturns prices).1, (computeReturns prices).2⟩

/-- Modelled from the spec: reconstructing the cumulative price path from an
initial price and a list of simple returns (spec section 8). -/
def reconstructPrices (p0 : ℚ) : List ℚ → List ℚ
  | [] => [p0]
  | r :: rest => p0 :: reconstructPrices (p0 * (1 + r)) rest

/-! ## RiskStats (spec section 4.2) -/

/-- Modelled from the spec: the arithmetic mean of a list of rationals
(division by a zero length yields `0` in ℚ). -/
def mean (l : List ℚ) : ℚ := l.sum / l.length

/-- Modelled from the spec: the sample variance of a return series.  The
implementation is missing from the visible sources.  The standard deviation
needs a real square root; the model keeps the variance, which is zero
exactly when the standard deviation is. -/
def sampleVariance (l : List ℚ) : ℚ :=
  (l.map (fun x => (x - mean l) ^ 2)).sum / ((l.length : ℚ) - 1)

/-- Modelled from the spec: the value of a Sharpe-ratio computation.  The
sentinel constructors mirror IEEE `+inf`, `-inf` and `NaN`, which ℚ lacks
(spec section 4.2). -/
inductive SharpeValue
  | val (x : ℚ)
  | posInf
  | negInf
  | nan
deriving DecidableEq, Repr

/-- Modelled from the spec: IEEE-style division into `SharpeValue`: a zero
denominator yields `NaN` for a zero numerator and a signed infinity
otherwise. -/
def qdivIEEE (a b : ℚ) : SharpeValue :=
  if b = 0 then (if a = 0 then .nan else if 0 < a then .posInf else .negInf)
  else .val (a / b)

/-- Modelled from the spec: the Sharpe ratio with the zero-volatility
sentinel policy of spec section 4.2 (report `+inf`, `-inf` or `0` by the
sign of the mean excess return instead of dividing by zero).  The
implementation is missing from the visible sources; the spec names this
operation `sharpe_ratio`.  The annualization scalar multiplies the variance
in this rational model (the spec multiplies the deviation by its square
root, which is irrational); zero volatility is unaffected. -/
def sharpeStat (returns : List ℚ) (riskFreeRate annualization : ℚ) : SharpeValue :=
  let m := mean returns - riskFreeRate
  let v := sampleVariance returns * annualization
  if v = 0 then (if 0 < m then .posInf else if m < 0 then .negInf else .val 0)
  else qdivIEEE m v

/-! ## Value-at-Risk and Conditional Value-at-Risk (spec section 4.2) -/

/-- Modelled from the spec: the return series sorted ascending, the
historical-simulation order statistics. -/
def sortedReturns (l : List ℚ) : List ℚ := l.insertionSort (· ≤ ·)

/-- Modelled from the spec: the one-based rank of the historical-simulation
percentile at level `1 - c` over `n` observations: the smallest rank
covering a `(1 - c)` fraction of the sample, at least `1`. -/
def varIndex (n : Nat) (c : ℚ) : Nat := max 1 (⌈(1 - c) * (n : ℚ)⌉.toNat)

/-- Modelled from the spec: the raw Value-at-Risk, the return at the
`varIndex` rank of the ascending order statistics (spec section 4.2).  The
implementation is missing from the visible sources; the spec names this
operation `value_at_risk`. -/
def valueAtRiskRaw (l : List ℚ) (c : ℚ) : ℚ :=
  (sortedReturns l).getD (varIndex l.length c - 1) 0

/-- Modelled from the spec: Value-at-Risk with the domain check of spec
section 4.2: a confidence level outside `(0,1)` fails with
`InvalidParameterError`; an empty series fails with
`InsufficientDataError`. -/
def valueAtRisk (l : List ℚ) (c : ℚ) : Except FinError ℚ :=
  if 0 < c ∧ c < 1 then
    (if l = [] then .error .insufficientData else .ok (valueAtRiskRaw l c))
  else .error .invalidParameter

/-- Modelled from the spec: the raw Conditional Value-at-Risk, the mean of
the returns at or below the Value-at-Risk threshold (spec section 4.2). -/
def cvarRaw (l : List ℚ) (c : ℚ) : ℚ :=
  mean (l.filter (fun r => r ≤ valueAtRiskRaw l c))

/-- Modelled from the spec: Conditional Value-at-Risk with the same domain
checks as `valueAtRisk`; the spec names this operation
`conditional_value_at_risk`. -/
def conditionalValueAtRisk (l : List ℚ) (c : ℚ) : Except FinError ℚ :=
  if 0 < c ∧ c < 1 then
    (if l = [] then .error .insufficientData else .ok (cvarRaw l c))
  else .error .invalidParameter

/-! ## CovarianceEstimator (spec section 4.3) -/

/-- Modelled from the spec: the timestamps of a dated return series. -/
def timestampsOf (s : List (Nat × ℚ)) : List Nat := s.map Prod.fst

/-- Modelled from the spec: the global intersection of the timestamps of
all series, in the order of the first series (spec section 4.3 fixes the
global-intersection alignment recommended there).  The implementation is
missing from the visible sources. -/
def commonTimestamps : List (List (Nat × ℚ)) → List Nat
  | [] => []
  | s :: rest =>
      (timestampsOf s).filter (fun t => rest.all (fun s2 => (timestampsOf s2).contains t))

/-- Modelled from the spec: the value a dated series takes at a timestamp
(`0` when absent; alignment only queries present timestamps). -/
def lookupValue (t : Nat) (s : List (Nat × ℚ)) : ℚ :=
  ((s.find? (fun p => p.1 == t)).map Prod.snd).getD 0

/-- Modelled from the spec: a series restricted to an aligned timestamp
list. -/
def alignSeries (ts : List Nat) (s : List (Nat × ℚ)) : List ℚ :=
  ts.map (fun t => lookupValue t s)

/-- Modelled from the spec: the sample covariance of two aligned value
lists, normalized by the number of aligned points minus one. -/
def pairCov (x y : List ℚ) : ℚ :=
  ((x.zip y).map (fun p => (p.1 - mean x) * (p.2 - mean y))).sum /
    (((x.zip y).length : ℚ) - 1)

/-- Modelled from the spec: the covariance matrix over aligned value lists,
computed once per unordered pair and mirrored (spec section 4.3): the entry
at `(i, j)` with `j < i` reuses the upper-triangle formula at `(j, i)`. -/
def covMatrixOf (xs : List (List ℚ)) : List (List ℚ) :=
  (List.range xs.length).map (fun i => (List.range xs.length).map (fun j =>
    if j < i then pairCov (xs.getD j []) (xs.getD i [])
    else pairCov (xs.getD i []) (xs.getD j [])))

/-- Modelled from the spec: the covariance estimator over dated return
series: global-intersection alignment, failing with
`InsufficientOverlapError` when fewer than two common timestamps exist
(spec section 4.3).  The implementation is missing from the visible
sources. -/
def covarianceMatrix (series : List (List (Nat × ℚ))) : Except FinError (List (List ℚ)) :=
  if (commonTimestamps series).length < 2 then .error .insufficientOverlap
  else .ok (covMatrixOf (series.map (alignSeries (commonTimestamps series))))

/-- Modelled from the spec: reading a matrix entry, `0` outside the
matrix. -/
def matrixEntry (M : List (List ℚ)) (i j : Nat) : ℚ := (M.getD i []).getD j 0

/-! ## VolatilitySurface (spec section 4.6) -/

/-- Modelled from the spec: the type of an option contract. -/
inductive OptionType
  | call
  | put
deriving DecidableEq, Repr

/-- Modelled from the spec: an option contract as consumed by the
volatility-surface build (spec section 4.6). -/
structure OptionContract where
  strike : ℚ
  expiry : ℚ
  market_price : ℚ
  option_type : OptionType
  underlying_price : ℚ
  risk_free_rate : ℚ
deriving DecidableEq, Repr

/-- Modelled from the spec: one point of the implied-volatility grid. -/
structure VolatilitySurfacePoint where
  strike : ℚ
  expiry : ℚ
  implied_vol : ℚ
deriving DecidableEq, Repr

/-- Modelled from the spec: a built surface: the successful grid points
alongside the per-contract failures (partial surfaces are valid results,
spec section 4.6). -/
structure VolSurface where
  points : List VolatilitySurfacePoint
  failures : List (OptionContract × FinError)
deriving DecidableEq, Repr

/-- Modelled from the spec: the lower edge of the volatility search
domain. -/
def ivLo : ℚ := 1 / 10000

/-- Modelled from the spec: the upper edge of the volatility search
domain. -/
def ivHi : ℚ := 5

/-- Modelled from the spec: the price tolerance of the root-find. -/
def ivTol : ℚ := 1 / 1000000

/-- Modelled from the spec: the fixed iteration cap of the root-find. -/
def ivCap : Nat := 40

/-- Modelled from the spec: bounded bisection inverting a monotone pricing
function over the volatility domain, `none` when the iteration cap is
exhausted without meeting the price tolerance (spec section 4.6). -/
def bisect (f : ℚ → ℚ) (target : ℚ) : ℚ → ℚ → Nat → Option ℚ
  | _, _, 0 => none
  | lo, hi, fuel + 1 =>
      let mid := (lo + hi) / 2
      if |f mid - target| < ivTol then some mid
      else if f mid < target then bisect f target mid hi fuel
      else bisect f target lo mid fuel

/-- Modelled from the spec: the implied-volatility root-find for a single
contract, failing with `NoConvergenceError` when bisection does not
converge within the fixed iteration cap (spec section 4.6).  The pricing
model is a parameter: the Black–Scholes inversion target needs
transcendental functions outside this rational model.  The implementation
is missing from the visible sources. -/
def solveContract (pm : OptionContract → ℚ → ℚ) (c : OptionContract) :
    Except FinError VolatilitySurfacePoint :=
  match bisect (pm c) c.market_price ivLo ivHi ivCap with
  | some sigma => .ok ⟨c.strike, c.expiry, sigma⟩
  | none => .error .noConvergence

/-- Modelled from the spec: building the surface from a contract list:
every contract is solved independently; failures are collected next to the
successful points and never abort the build (spec sections 4.6 and 7).
The implementation is missing from the visible sources. -/
def buildSurface (pm : OptionContract → ℚ → ℚ) (contracts : List OptionContract) :
    VolSurface :=
  ⟨contracts.filterMap (fun c => (solveContract pm c).toOption),
   contracts.filterMap (fun c =>
     match solveContract pm c with
     | .error e => some (c, e)
     | .ok _ => none)⟩

/-! ## ConstraintModel and Optimizer (spec sections 4.4, 4.5)

The constraint surface follows the format the repository's client example
passes to `Portfolio`: per-asset `(lower, upper)` box bounds in asset
order, and a categorical family naming a label per asset together with a
`(label, group_lower, group_upper)` bound list.  The client example passes
a single categorical family; the model covers at most one family in its
feasibility analysis and checks all of them at every accepted iterate. -/

/-- Modelled from the spec: the tagged objective variant of spec
section 3 (`ObjectiveSpec`); the implementation is missing from the
visible sources. -/
inductive ObjectiveSpec
  | maxSharpe
  | minVolatility
  | maxReturnForTargetRisk (target : ℚ)
  | riskParity
deriving DecidableEq, Repr

/-- Modelled from the spec: one categorical constraint family in the
format of the client example: a family name, one category label per asset,
and per-label group bounds. -/
structure CategoricalConstraint where
  name : String
  memberships : List String
  bounds : List (String × ℚ × ℚ)
deriving DecidableEq, Repr

/-- Modelled from the spec: the full constraint set (spec section 3):
per-asset box bounds plus categorical families. -/
structure ConstraintSet where
  boxes : List (ℚ × ℚ)
  categorical : List CategoricalConstraint
deriving DecidableEq, Repr

/-- Modelled from the spec: the optimizer's result record (spec
section 3). -/
structure OptimizationResult where
  weights : List ℚ
  objective_value : ℚ
  iterations_used : Nat
  converged : Bool
deriving DecidableEq, Repr

/-- Modelled from the spec: the summed weight of the assets carrying a
label in a categorical family. -/
def groupSum (ms : List String) (lbl : String) (w : List ℚ) : ℚ :=
  (((ms.zip w).filter (fun p => p.1 == lbl)).map Prod.snd).sum

/-- Modelled from the spec: feasibility of a weight vector (spec
section 4.4's `feasible(weights)`): full length, total weight one, every
box bound and every categorical group bound satisfied. -/
def FeasibleW (cs : ConstraintSet) (w : List ℚ) : Prop :=
  w.length = cs.boxes.length ∧ w.sum = 1 ∧
  (∀ p ∈ cs.boxes.zip w, p.1.1 ≤ p.2 ∧ p.2 ≤ p.1.2) ∧
  (∀ fam ∈ cs.categorical, ∀ b ∈ fam.bounds,
    b.2.1 ≤ groupSum fam.memberships b.1 w ∧ groupSum fam.memberships b.1 w ≤ b.2.2)

/-- Modelled from the spec: the executable feasibility check used by the
optimizer at every accepted iterate. -/
def feasibleCheck (cs : ConstraintSet) (w : List ℚ) : Bool :=
  (w.length == cs.boxes.length) && (w.sum == 1) &&
  ((cs.boxes.zip w).all (fun p => decide (p.1.1 ≤ p.2) && decide (p.2 ≤ p.1.2))) &&
  (cs.categorical.all (fun fam => fam.bounds.all (fun b =>
    decide (b.2.1 ≤ groupSum fam.memberships b.1 w) &&
    decide (groupSum fam.memberships b.1 w ≤ b.2.2))))

/-- Modelled from the spec: construction-time validation of a constraint
set (spec section 4.4): no box bound with `lower > upper`, no categorical
bound with `lower > upper`, every family labelling exactly the assets of
the instrument list; the model additionally requires the bound labels of a
family to be distinct (each category carries one bound). -/
def validCheck (cs : ConstraintSet) : Bool :=
  (cs.boxes.all (fun p => decide (p.1 ≤ p.2))) &&
  (cs.categorical.all (fun fam =>
    (fam.memberships.length == cs.boxes.length) &&
    decide (fam.bounds.map Prod.fst).Nodup &&
    fam.bounds.all (fun b => decide (b.2.1 ≤ b.2.2))))

/-- Modelled from the spec: the categorical family the feasibility
analysis works with: the first family when one is given, otherwise the
trivial family labelling every asset alike with no group bound. -/
def famOf (cs : ConstraintSet) : CategoricalConstraint :=
  cs.categorical.headD ⟨"", List.replicate cs.boxes.length "", []⟩

/-- Modelled from the spec: the group bound attached to a label, when
any. -/
def findBound (bounds : List (String × ℚ × ℚ)) (lbl : String) : Option (ℚ × ℚ) :=
  (bounds.find? (fun b => b.1 == lbl)).map Prod.snd

/-- Modelled from the spec: the box bounds of the assets carrying a
label. -/
def groupBoxes (ms : List String) (boxes : List (ℚ × ℚ)) (lbl : String) : List (ℚ × ℚ) :=
  ((ms.zip boxes).filter (fun p => p.1 == lbl)).map Prod.snd

/-- Modelled from the spec: the summed box lower bounds of a label's
assets. -/
def groupLoSum (cs : ConstraintSet) (lbl : String) : ℚ :=
  ((groupBoxes (famOf cs).memberships cs.boxes lbl).map Prod.fst).sum

/-- Modelled from the spec: the summed box upper bounds of a label's
assets. -/
def groupUpSum (cs : ConstraintSet) (lbl : String) : ℚ :=
  ((groupBoxes (famOf cs).memberships cs.boxes lbl).map Prod.snd).sum

/-- Modelled from the spec: the interval of group weights a label can
carry: its box-bound sum range intersected with its group bound (the
categorical ceilings and floors of spec section 4.5's feasibility
pre-check). -/
def effInterval (cs : ConstraintSet) (lbl : String) : ℚ × ℚ :=
  match findBound (famOf cs).bounds lbl with
  | none => (groupLoSum cs lbl, groupUpSum cs lbl)
  | some b => (max b.1 (groupLoSum cs lbl), min b.2 (groupUpSum cs lbl))

/-- Modelled from the spec: the distinct category labels of the working
family. -/
def labelsOf (cs : ConstraintSet) : List String := (famOf cs).memberships.dedup

/-- Modelled from the spec: the working family's effective group-weight
intervals, one per distinct label. -/
def ivsOf (cs : ConstraintSet) : List (ℚ × ℚ) := (labelsOf cs).map (effInterval cs)

/-- Modelled from the spec: the zipped (label, box) asset list the fill
works through. -/
def assetsOf (cs : ConstraintSet) : List (String × (ℚ × ℚ)) :=
  (famOf cs).memberships.zip cs.boxes

/-- Modelled from the spec: the feasibility pre-check of spec
section 4.5: every label's effective interval is nonempty, the intervals'
sum range covers the total weight `1`, and a bounded label naming no asset
admits the empty group sum `0`. -/
def precheck (cs : ConstraintSet) : Bool :=
  ((labelsOf cs).all
    (fun lbl => decide ((effInterval cs lbl).1 ≤ (effInterval cs lbl).2))) &&
  decide ((((labelsOf cs).map (fun lbl => (effInterval cs lbl).1)).sum) ≤ 1) &&
  decide ((1 : ℚ) ≤ (((labelsOf cs).map (fun lbl => (effInterval cs lbl).2)).sum)) &&
  ((famOf cs).bounds.all (fun b =>
    (famOf cs).memberships.contains b.1 ||
    (decide (b.2.1 ≤ 0) && decide ((0 : ℚ) ≤ b.2.2))))

/-- Modelled from the spec: greedy waterfall fill: raise each coordinate
from its lower bound toward its upper bound, in order, until the given
extra mass is distributed. -/
def fill : List (ℚ × ℚ) → ℚ → List ℚ
  | [], _ => []
  | (a, b) :: rest, extra =>
      let add := min (b - a) extra
      (a + add) :: fill rest (extra - add)

/-- Modelled from the spec: the remaining extra mass a label may still
absorb, tracked by the two-level fill. -/
def lookupRem (lbl : String) : List (String × ℚ) → Option ℚ
  | [] => none
  | (k, v) :: rest => if k = lbl then some v else lookupRem lbl rest

/-- Modelled from the spec: updating a label's remaining extra mass. -/
def updateRem (lbl : String) (v : ℚ) : List (String × ℚ) → List (String × ℚ)
  | [] => []
  | (k, w) :: rest => if k = lbl then (k, v) :: rest else (k, w) :: updateRem lbl v rest

/-- Modelled from the spec: the asset-level pass of the two-level fill:
each asset starts at its box lower bound and absorbs as much of its
label's remaining extra mass as its box allows. -/
def fillPass : List (String × (ℚ × ℚ)) → List (String × ℚ) → List ℚ
  | [], _ => []
  | (lbl, ab) :: rest, rem =>
      match lookupRem lbl rem with
      | none => ab.1 :: fillPass rest rem
      | some r =>
          let add := min (ab.2 - ab.1) r
          (ab.1 + add) :: fillPass rest (updateRem lbl (r - add) rem)

/-- Modelled from the spec: the per-label group-weight targets: a
waterfall fill over the labels' effective intervals distributing the total
weight `1`. -/
def svalsOf (cs : ConstraintSet) : List ℚ :=
  fill (ivsOf cs) (1 - ((ivsOf cs).map Prod.fst).sum)

/-- Modelled from the spec: each label's extra mass above its summed box
lower bounds, handed to the asset-level fill. -/
def remOf (cs : ConstraintSet) : List (String × ℚ) :=
  ((labelsOf cs).zip (svalsOf cs)).map (fun p => (p.1, p.2 - groupLoSum cs p.1))

/-- Modelled from the spec: the optimizer's feasible starting point: when
the pre-check passes, pick each label's group weight by a waterfall fill
over the labels' effective intervals (hitting total weight `1`), then fill
each asset inside its group; `none` when the pre-check fails. -/
def startPoint (cs : ConstraintSet) : Option (List ℚ) :=
  if precheck cs then some (fillPass (assetsOf cs) (remOf cs)) else none

/-- Modelled from the spec: the equal-weight vector, the tie-break anchor
of spec section 4.5. -/
def eqWeight (n : Nat) : List ℚ := List.replicate n (1 / (n : ℚ))

/-- Modelled from the spec: the squared L2 distance between weight
vectors. -/
def dist2 (v u : List ℚ) : ℚ := ((v.zip u).map (fun p => (p.1 - p.2) ^ 2)).sum

/-- Modelled from the spec: the dot product of two vectors. -/
def dot (v u : List ℚ) : ℚ := ((v.zip u).map (fun p => p.1 * p.2)).sum

/-- Modelled from the spec: a matrix-vector product over list matrices. -/
def matVec (M : List (List ℚ)) (w : List ℚ) : List ℚ := M.map (fun row => dot row w)

/-- Modelled from the spec: the portfolio variance form `wᵀ Σ w`. -/
def portVariance (cov : List (List ℚ)) (w : List ℚ) : ℚ := dot w (matVec cov w)

/-- Modelled from the spec: the scalar objective of each
`ObjectiveSpec` variant (spec section 3), maximized by the search.  The
Sharpe and risk-parity objectives need square roots, which leave ℚ; the
model uses rational risk-adjusted proxies with the same constraint
behavior — no claim under verification depends on the objective's numeric
value. -/
def objValue (obj : ObjectiveSpec) (er : List ℚ) (cov : List (List ℚ)) (rf : ℚ)
    (w : List ℚ) : ℚ :=
  match obj with
  | .maxSharpe => (dot er w - rf) / (1 + portVariance cov w)
  | .minVolatility => - portVariance cov w
  | .maxReturnForTargetRisk t => dot er w - (portVariance cov w - t) ^ 2
  | .riskParity =>
      - (((matVec cov w).zip w).map
          (fun p => (p.1 * p.2 - portVariance cov w / (w.length : ℚ)) ^ 2)).sum

/-- Modelled from the spec: candidate selection with the plateau
tie-break of spec section 4.5: a strictly better objective wins; on an
exact objective tie the iterate strictly closer (in L2) to the
equal-weight vector wins; otherwise the incumbent is kept. -/
def selectBetter (obj : ObjectiveSpec) (er : List ℚ) (cov : List (List ℚ)) (rf : ℚ)
    (n : Nat) (best cand : List ℚ) : List ℚ :=
  if objValue obj er cov rf best < objValue obj er cov rf cand then cand
  else if objValue obj er cov rf cand = objValue obj er cov rf best ∧
      dist2 cand (eqWeight n) < dist2 best (eqWeight n) then cand
  else best

/-- Modelled from the spec: the deterministic candidate proposal of
iteration `iter`: move a step of mass from one asset to the next, the pair
and the step size cycling deterministically with the iteration count. -/
def nextCandidate (cs : ConstraintSet) (best : List ℚ) (iter : Nat) : List ℚ :=
  let n := cs.boxes.length
  let i := iter % n
  let j := (iter + 1) % n
  let step := (1 : ℚ) / 2 ^ (iter + 1)
  (best.set i (best.getD i 0 - step)).set j (best.getD j 0 + step)

/-- Modelled from the spec: the convergence tolerance on the objective's
improvement between iterations. -/
def convTol : ℚ := 1 / 1000000000

/-- Modelled from the spec: the optimizer's iteration loop: propose a
candidate, accept it only when feasible and better under `selectBetter`,
stop early (converged) when the improvement falls below `convTol`, stop
with `converged = false` when the budget is exhausted; the best feasible
iterate is always carried. -/
def optLoop (obj : ObjectiveSpec) (er : List ℚ) (cov : List (List ℚ)) (rf : ℚ)
    (cs : ConstraintSet) : List ℚ → Nat → Nat → OptimizationResult
  | best, iter, 0 => ⟨best, objValue obj er cov rf best, iter, false⟩
  | best, iter, fuel + 1 =>
      let cand := nextCandidate cs best iter
      let best2 := if feasibleCheck cs cand
        then selectBetter obj er cov rf cs.boxes.length best cand else best
      if objValue obj er cov rf best2 - objValue obj er cov rf best < convTol then
        ⟨best2, objValue obj er cov rf best2, iter + 1, true⟩
      else optLoop obj er cov rf cs best2 (iter + 1) fuel

/-- Modelled from the spec: the optimizer (spec section 4.5): reject an
invalid constraint set at construction (`InvalidParameterError`, spec
section 4.4), fail with `InfeasibleConstraintsError` exactly when no
feasible start exists, and otherwise run the iteration loop from the
constructed feasible start; non-convergence never fails the call.  The
implementation is missing from the visible sources. -/
def optimize (obj : ObjectiveSpec) (er : List ℚ) (cov : List (List ℚ)) (rf : ℚ)
    (cs : ConstraintSet) (maxIterations : Nat) : Except FinError OptimizationResult :=
  if validCheck cs then
    match startPoint cs with
    | none => .error .infeasibleConstraints
    | some w0 =>
        if feasibleCheck cs w0 then
          .ok (optLoop obj er cov rf cs w0 0 maxIterations)
        else .error .infeasibleConstraints
  else .error .invalidParameter

/-- Helper of the feasibility analysis: the labels of a remaining-mass
table. -/
def remKeys (rem : List (String × ℚ)) : List String := rem.map Prod.fst

/-- Helper of the feasibility analysis: the total remaining mass of a
table. -/
def remValsSum (rem : List (String × ℚ)) : ℚ := (rem.map Prod.snd).sum

/-- Helper of the feasibility analysis: the summed box lower bounds of a
label inside a zipped asset list. -/
def assetLoSum (A : List (String × (ℚ × ℚ))) (lbl : String) : ℚ :=
  ((A.filter (fun s => s.1 == lbl)).map (fun s => s.2.1)).sum

/-- Helper of the feasibility analysis: the summed box widths of a label
inside a zipped asset list. -/
def assetCapSum (A : List (String × (ℚ × ℚ))) (lbl : String) : ℚ :=
  ((A.filter (fun s => s.1 == lbl)).map (fun s => s.2.2 - s.2.1)).sum

/-- Helper of the feasibility analysis: the summed weight of a label over
a zipped asset list and a weight vector. -/
def gVal (A : List (String × (ℚ × ℚ))) (w : List ℚ) (lbl : String) : ℚ :=
  (((A.zip w).filter (fun p => p.1.1 == lbl)).map Prod.snd).sum

/-- Helper of the feasibility analysis: the summed box upper bounds of a
label inside a zipped asset list. -/
def assetUpSum (A : List (String × (ℚ × ℚ))) (lbl : String) : ℚ :=
  ((A.filter (fun s => s.1 == lbl)).map (fun s => s.2.2)).sum

/-- Modelled from the spec: the boundary constraint set of the repository's
client example: five assets with box bounds `[0, 1]`, the EQUITY group
capped at `0.8` and the CRYPTO group capped at `0.2` — the group caps sum
exactly to the total weight `1`. -/
def portfolioExampleCS : ConstraintSet :=
  ⟨[(0, 1), (0, 1), (0, 1), (0, 1), (0, 1)],
   [⟨ "AssetClass",
      [ "EQUITY", "EQUITY", "EQUITY", "EQUITY", "CRYPTO"],
      [( "EQUITY", 0, 4/5), ( "CRYPTO", 0, 1/5)]⟩]⟩

/-- Modelled from the spec: a minimal two-asset constraint set with unit
box bounds and no categorical family, used to exercise the optimizer. -/
def witnessCS1 : ConstraintSet := ⟨[(0, 1), (0, 1)], []⟩

/-- Modelled from the spec: a concrete budget-zero optimizer run on
`witnessCS1`. -/
def witnessRun1 : OptimizationResult :=
  optLoop .maxSharpe [1/10, 1/5] [[1, 0], [0, 1]] 0 witnessCS1
    (fillPass (assetsOf witnessCS1) (remOf witnessCS1)) 0 0

/-- Modelled from the spec: a concrete three-iteration optimizer run on
`witnessCS1` under the minimum-volatility objective. -/
def witnessRun2 : OptimizationResult :=
  optLoop .minVolatility [1/10, 1/5] [[1, 0], [0, 1]] 0 witnessCS1
    (fillPass (assetsOf witnessCS1) (remOf witnessCS1)) 0 3

/-- Modelled from the spec: the infeasible constraint set of the claim's
example: two disjoint categorical groups whose lower bounds sum to `1.2`,
more than the total weight `1`. -/
def witnessCSAB : ConstraintSet :=
  ⟨[(0, 1), (0, 1)],
   [⟨ "AssetClass", [ "A", "B"], [( "A", 9/10, 1), ( "B", 3/10, 1)]⟩]⟩

lemma computeReturns_nonzero (p : ℚ) (prices : List ℚ) (hp : p ≠ 0)
    (h : ∀ x ∈ prices, x ≠ 0) :
    (computeReturns (p :: prices)).1.length = prices.length ∧
      reconstructPrices p (computeReturns (p :: prices)).1 = p :: prices := by
  induction prices generalizing p with
  | nil => simp [computeReturns, reconstructPrices]
  | cons q rest ih =>
      have hq : q ≠ 0 := h q (by simp)
      have hrest : ∀ x ∈ rest, x ≠ 0 := fun x hx => h x (by simp [hx])
      obtain ⟨hlen, hrec⟩ := ih q hq hrest
      constructor
      · simp [computeReturns, hp, hlen]
      · have hval : p * (1 + (q / p - 1)) = q := by
          field_simp
        simp only [computeReturns, if_neg hp, reconstructPrices, hval, hrec]

/-- C6 (amended): for every price series with at least two points, all of
whose prices are nonzero, the built `ReturnSeries` has length equal to the
price-series length minus one, and reconstructing the cumulative price path
from the returns and the initial price reproduces the original prices
exactly (hence within any floating tolerance).  The nonzero-price hypothesis
is forced by the drop-on-zero-denominator policy of spec section 4.1. -/
theorem returnSeries_length_and_roundtrip (prices : List ℚ) (p0 : ℚ) (rest : List ℚ)
    (hshape : prices = p0 :: rest) (hlen : 2 ≤ prices.length)
    (hnz : ∀ x ∈ prices, x ≠ 0) :
    ∃ rs : ReturnSeries, buildReturnSeries prices = .ok rs ∧
      rs.returns.length = prices.length - 1 ∧
      reconstructPrices p0 rs.returns = prices := by
  subst hshape
  have hp0 : p0 ≠ 0 := hnz p0 (by simp)
  have hrest : ∀ x ∈ rest, x ≠ 0 := fun x hx => hnz x (by simp [hx])
  obtain ⟨h1, h2⟩ := computeReturns_nonzero p0 rest hp0 hrest
  refine ⟨⟨(computeReturns (p0 :: rest)).1, (computeReturns (p0 :: rest)).2⟩, ?_, ?_, h2⟩
  · have : ¬ (p0 :: rest).length < 2 := by omega
    simp only [buildReturnSeries, if_neg this]
  · simpa using h1

/-- C6 counterexample: the two-point price series `[0, 1]` has at least two
points, yet the built return series has length `0`, not `2 - 1 = 1`: the
pair with zero denominator is dropped (spec section 4.1), contradicting the
unconditional length claim of spec section 8. -/
theorem returnSeries_length_counterexample :
    buildReturnSeries [0, 1] = .ok ⟨[], 1⟩ ∧
      ¬ ((⟨[], 1⟩ : ReturnSeries).returns.length = [(0 : ℚ), 1].length - 1) := by
  constructor
  · simp [buildReturnSeries, computeReturns]
  · simp

/-- C8: for every return series with zero sample variance, the Sharpe
computation does not fail but returns the documented sentinel — `+inf`,
`-inf` or `0` by the sign of the mean excess return — and the Sharpe
computation never produces `NaN` on any input. -/
theorem sharpe_zero_volatility_sentinel (returns : List ℚ)
    (riskFreeRate annualization : ℚ)
    (hv : sampleVariance returns = 0) :
    sharpeStat returns riskFreeRate annualization =
      (if 0 < mean returns - riskFreeRate then .posInf
       else if mean returns - riskFreeRate < 0 then .negInf else .val 0) ∧
    ∀ (l : List ℚ) (rf ann : ℚ), sharpeStat l rf ann ≠ SharpeValue.nan := by
  constructor
  · simp [sharpeStat, hv]
  · intro l rf ann
    unfold sharpeStat qdivIEEE
    dsimp only
    split
    · split
      · simp
      · split <;> simp
    · simp

/-- C8 witness: the constant return series `[1/50, 1/50]` has zero sample
variance, and with risk-free rate `1/100` the Sharpe computation reports
`+inf`. -/
theorem sharpe_zero_volatility_sentinel_witness :
    sampleVariance [1/50, 1/50] = 0 ∧
      sharpeStat [1/50, 1/50] (1/100) 252 = .posInf := by
  have hv : sampleVariance [(1 : ℚ)/50, 1/50] = 0 := by
    norm_num [sampleVariance, mean]
  refine ⟨hv, ?_⟩
  have h := (sharpe_zero_volatility_sentinel [1/50, 1/50] (1/100) 252 hv).1
  rw [h]
  norm_num [mean]

lemma varIndex_pos (n : Nat) (c : ℚ) : 1 ≤ varIndex n c := Nat.le_max_left 1 _

lemma varIndex_le (n : Nat) (c : ℚ) (h1 : 0 < c) (hn : 1 ≤ n) : varIndex n c ≤ n := by
  unfold varIndex
  rw [Nat.max_le]
  refine ⟨hn, ?_⟩
  have hle : (1 - c) * (n : ℚ) ≤ (n : ℚ) := by
    have h0 : (0 : ℚ) ≤ (n : ℚ) := by positivity
    nlinarith
  have : ⌈(1 - c) * (n : ℚ)⌉ ≤ (n : ℤ) := Int.ceil_le.mpr (by exact_mod_cast hle)
  omega

lemma varIndex_idx_lt (l : List ℚ) (c : ℚ) (h1 : 0 < c) (hl : l ≠ []) :
    varIndex l.length c - 1 < (sortedReturns l).length := by
  have hn : 1 ≤ l.length := List.length_pos.mpr hl
  have h2 := varIndex_le l.length c h1 hn
  have h3 := varIndex_pos l.length c
  have : (sortedReturns l).length = l.length := List.length_insertionSort _ l
  omega

lemma valueAtRiskRaw_mem (l : List ℚ) (c : ℚ) (h1 : 0 < c) (hl : l ≠ []) :
    valueAtRiskRaw l c ∈ l := by
  have hidx := varIndex_idx_lt l c h1 hl
  have : valueAtRiskRaw l c ∈ sortedReturns l := by
    rw [valueAtRiskRaw, List.getD_eq_getElem _ _ hidx]
    exact List.getElem_mem _
  exact (List.mem_insertionSort _).mp this

lemma filter_le_var_count (l : List ℚ) (c : ℚ) (h1 : 0 < c) (hl : l ≠ []) :
    varIndex l.length c ≤ (l.filter (fun r => r ≤ valueAtRiskRaw l c)).length := by
  set s := sortedReturns l with hs
  set k := varIndex l.length c with hk
  have hidx : k - 1 < s.length := varIndex_idx_lt l c h1 hl
  have hsorted : s.Sorted (· ≤ ·) := List.sorted_insertionSort _ l
  have hperm : s.Perm l := List.perm_insertionSort _ l
  set v := valueAtRiskRaw l c with hv
  have hvdef : v = s.get ⟨k - 1, hidx⟩ := by
    rw [hv, valueAtRiskRaw, ← hs, ← hk, List.getD_eq_get _ _ hidx]
  have hcount : (l.filter (fun r => r ≤ v)).length = (s.filter (fun r => r ≤ v)).length :=
    ((hperm.filter _).length_eq).symm
  rw [hcount]
  have hklen : k ≤ s.length := by omega
  have htake : ∀ x ∈ s.take k, decide (x ≤ v) = true := by
    intro x hx
    obtain ⟨i, hi, hix⟩ := List.mem_iff_getElem.mp hx
    have hik : i < k := by
      have := hi
      simp only [List.length_take] at this
      omega
    have hig : i < s.length := by omega
    have hxi : x = s.get ⟨i, hig⟩ := by
      rw [← hix]
      simp [List.getElem_take]
    have hle : s.get ⟨i, hig⟩ ≤ s.get ⟨k - 1, hidx⟩ := by
      apply hsorted.rel_get_of_le
      simp only [Fin.mk_le_mk]
      omega
    rw [hxi, hvdef]
    simp only [List.get_eq_getElem] at hle ⊢
    simpa using hle
  have hsplit : s.filter (fun r => decide (r ≤ v)) =
      (s.take k).filter (fun r => decide (r ≤ v)) ++
        (s.drop k).filter (fun r => decide (r ≤ v)) := by
    rw [← List.filter_append, List.take_append_drop]
  have htakeeq : (s.take k).filter (fun r => decide (r ≤ v)) = s.take k :=
    List.filter_eq_self.mpr htake
  calc k = (s.take k).length := by rw [List.length_take]; omega
    _ ≤ ((s.take k).filter (fun r => decide (r ≤ v))).length +
          ((s.drop k).filter (fun r => decide (r ≤ v))).length := by
        rw [htakeeq]; omega
    _ = (s.filter (fun r => decide (r ≤ v))).length := by
        rw [hsplit, List.length_append]

lemma mean_le_of_forall_le (L : List ℚ) (v : ℚ) (hne : L ≠ [])
    (hb : ∀ x ∈ L, x ≤ v) : mean L ≤ v := by
  have hsum : L.sum ≤ L.length • v := List.sum_le_card_nsmul L v hb
  have hlen : (0 : ℚ) < (L.length : ℚ) := by
    have := List.length_pos.mpr hne
    exact_mod_cast this
  rw [mean, div_le_iff₀ hlen]
  calc L.sum ≤ L.length • v := hsum
    _ = (L.length : ℚ) * v := by rw [nsmul_eq_mul]
    _ = v * (L.length : ℚ) := by ring

/-- C7 (amended): for every nonempty return series and every confidence
level in `(0,1)`, `valueAtRisk` succeeds with the historical-simulation
percentile of the return distribution at level `1 - c` (the `varIndex` rank
of the ascending order statistics — an actual historical return, with at
least `varIndex` returns at or below it), `conditionalValueAtRisk` succeeds
with the mean of the returns at or below that threshold, CVaR is at least
as extreme as VaR toward losses (`CVaR ≤ VaR`, hence at least as large in
magnitude whenever VaR is a loss), and with 252 daily returns at confidence
level `0.95` the rank is `13 = ⌈0.05 · 252⌉`, the 5th-percentile loss.
The unconditional magnitude comparison of the original claim is amended to
the `VaR ≤ 0` case, as forced by the counterexample. -/
theorem var_cvar_percentile (l : List ℚ) (c : ℚ)
    (h1 : 0 < c) (h2 : c < 1) (h3 : l ≠ []) :
    valueAtRisk l c = .ok (valueAtRiskRaw l c) ∧
    conditionalValueAtRisk l c = .ok (cvarRaw l c) ∧
    valueAtRiskRaw l c ∈ l ∧
    varIndex l.length c ≤ (l.filter (fun r => r ≤ valueAtRiskRaw l c)).length ∧
    cvarRaw l c ≤ valueAtRiskRaw l c ∧
    (valueAtRiskRaw l c ≤ 0 → |valueAtRiskRaw l c| ≤ |cvarRaw l c|) ∧
    (l.length = 252 → c = 95 / 100 → varIndex l.length c = 13) := by
  have hcount := filter_le_var_count l c h1 h3
  have hfilne : l.filter (fun r => r ≤ valueAtRiskRaw l c) ≠ [] := by
    have hk := varIndex_pos l.length c
    intro hcon
    rw [hcon] at hcount
    simp at hcount
    omega
  have hball : ∀ x ∈ l.filter (fun r => r ≤ valueAtRiskRaw l c),
      x ≤ valueAtRiskRaw l c := by
    intro x hx
    have := List.of_mem_filter hx
    simpa using this
  have hcvar : cvarRaw l c ≤ valueAtRiskRaw l c :=
    mean_le_of_forall_le _ _ hfilne hball
  refine ⟨by simp [valueAtRisk, h1, h2, h3], by simp [conditionalValueAtRisk, h1, h2, h3],
    valueAtRiskRaw_mem l c h1 h3, hcount, hcvar, ?_, ?_⟩
  · intro hv0
    rw [abs_of_nonpos hv0, abs_of_nonpos (le_trans hcvar hv0)]
    linarith
  · intro hlen hc
    subst hc
    rw [hlen]
    unfold varIndex
    have h : ((1 : ℚ) - 95 / 100) * ((252 : Nat) : ℚ) = 63 / 5 := by norm_num
    rw [h]
    have hceil : ⌈(63 : ℚ) / 5⌉ = 13 := by
      rw [Int.ceil_eq_iff] <;> norm_num
    rw [hceil]
    decide

/-- C7 witness: the theorem applied to the three-point return series
`[1/100, 1/50, 3/100]` at confidence level `1/3`. -/
theorem var_cvar_percentile_witness :
    (0 : ℚ) < 1 / 3 ∧ (1 / 3 : ℚ) < 1 ∧ ([1/100, 1/50, 3/100] : List ℚ) ≠ [] ∧
    valueAtRisk [1/100, 1/50, 3/100] (1/3) =
      .ok (valueAtRiskRaw [1/100, 1/50, 3/100] (1/3)) ∧
    cvarRaw [1/100, 1/50, 3/100] (1/3) ≤ valueAtRiskRaw [1/100, 1/50, 3/100] (1/3) :=
  ⟨by norm_num, by norm_num, by simp,
    (var_cvar_percentile [1/100, 1/50, 3/100] (1/3) (by norm_num) (by norm_num) (by simp)).1,
    (var_cvar_percentile [1/100, 1/50, 3/100] (1/3) (by norm_num) (by norm_num)
      (by simp)).2.2.2.2.1⟩

/-- C7 counterexample: on the all-positive return series
`[1/100, 1/50, 3/100]` at confidence level `1/3`, VaR is `1/50` and CVaR is
`3/200`, so `|CVaR| < |VaR|`: CVaR is not at least as extreme as VaR in
magnitude, refuting the unconditional magnitude clause of the claim. -/
theorem var_cvar_magnitude_counterexample :
    valueAtRisk [1/100, 1/50, 3/100] (1/3) = .ok (1/50) ∧
    conditionalValueAtRisk [1/100, 1/50, 3/100] (1/3) = .ok (3/200) ∧
    ¬ (|(1/50 : ℚ)| ≤ |(3/200 : ℚ)|) := by
  have h1 : valueAtRiskRaw [1/100, 1/50, 3/100] (1/3) = 1/50 := by
    unfold valueAtRiskRaw varIndex
    have h : ((1 : ℚ) - 1/3) * (([(1:ℚ)/100, 1/50, 3/100].length : ℚ)) = 2 := by norm_num
    rw [h]
    have h2 : Int.toNat 2 - 1 = 1 := by decide
    norm_num [sortedReturns, List.insertionSort, List.orderedInsert, h2,
      List.getElem?_cons_succ, List.getElem?_cons_zero]
  have h2 : cvarRaw [1/100, 1/50, 3/100] (1/3) = 3/200 := by
    unfold cvarRaw
    rw [h1]
    norm_num [List.filter, mean]
  refine ⟨?_, ?_, ?_⟩
  · rw [valueAtRisk, if_pos (by norm_num), if_neg (by simp), h1]
  · rw [conditionalValueAtRisk, if_pos (by norm_num), if_neg (by simp), h2]
  · rw [not_le, abs_of_nonneg (by norm_num : (0:ℚ) ≤ 3/200),
      abs_of_nonneg (by norm_num : (0:ℚ) ≤ 1/50)]
    norm_num

/-- C6 witness: the theorem applied to the concrete nonzero price series
`[1, 2, 1]`. -/
theorem returnSeries_roundtrip_witness :
    2 ≤ [(1 : ℚ), 2, 1].length ∧ (∀ x ∈ [(1 : ℚ), 2, 1], x ≠ 0) ∧
    ∃ rs : ReturnSeries, buildReturnSeries [(1 : ℚ), 2, 1] = .ok rs ∧
      rs.returns.length = [(1 : ℚ), 2, 1].length - 1 ∧
      reconstructPrices 1 rs.returns = [(1 : ℚ), 2, 1] :=
  ⟨by simp, by intro x hx; fin_cases hx <;> norm_num,
    returnSeries_length_and_roundtrip [(1 : ℚ), 2, 1] 1 [2, 1] rfl (by simp)
      (by intro x hx; fin_cases hx <;> norm_num)⟩

lemma covMatrixOf_length (xs : List (List ℚ)) : (covMatrixOf xs).length = xs.length := by
  simp [covMatrixOf]

lemma covMatrixOf_row (xs : List (List ℚ)) (i : Nat) (hi : i < xs.length) :
    (covMatrixOf xs).getD i [] = (List.range xs.length).map (fun j =>
      if j < i then pairCov (xs.getD j []) (xs.getD i [])
      else pairCov (xs.getD i []) (xs.getD j [])) := by
  have hlen : i < (covMatrixOf xs).length := by rw [covMatrixOf_length]; exact hi
  rw [List.getD_eq_getElem _ _ hlen]
  unfold covMatrixOf
  simp

lemma covMatrixOf_entry (xs : List (List ℚ)) (i j : Nat)
    (hi : i < xs.length) (hj : j < xs.length) :
    matrixEntry (covMatrixOf xs) i j =
      (if j < i then pairCov (xs.getD j []) (xs.getD i [])
       else pairCov (xs.getD i []) (xs.getD j [])) := by
  unfold matrixEntry
  rw [covMatrixOf_row xs i hi]
  have hj2 : j < ((List.range xs.length).map (fun j =>
      if j < i then pairCov (xs.getD j []) (xs.getD i [])
      else pairCov (xs.getD i []) (xs.getD j []))).length := by
    simpa using hj
  rw [List.getD_eq_getElem _ _ hj2]
  simp

lemma covMatrixOf_entry_oob (xs : List (List ℚ)) (i j : Nat)
    (h : xs.length ≤ i ∨ xs.length ≤ j) :
    matrixEntry (covMatrixOf xs) i j = 0 := by
  unfold matrixEntry
  rcases h with h | h
  · have hrow : (covMatrixOf xs).getD i [] = [] :=
      List.getD_eq_default _ _ (by rw [covMatrixOf_length]; exact h)
    rw [hrow]
    simp
  · rcases Nat.lt_or_ge i xs.length with hi | hi
    · rw [covMatrixOf_row xs i hi]
      apply List.getD_eq_default
      simpa using h
    · have hrow : (covMatrixOf xs).getD i [] = [] :=
        List.getD_eq_default _ _ (by rw [covMatrixOf_length]; exact hi)
      rw [hrow]
      simp

lemma zip_map_mul_comm (x y : List ℚ) (a b : ℚ) :
    ((x.zip y).map (fun p => (p.1 - a) * (p.2 - b))).sum =
      ((y.zip x).map (fun p => (p.1 - b) * (p.2 - a))).sum := by
  induction x generalizing y with
  | nil => simp
  | cons hd tl ih =>
      cases y with
      | nil => simp
      | cons hd2 tl2 =>
          simp only [List.zip_cons_cons, List.map_cons, List.sum_cons, ih tl2]
          ring_nf

lemma pairCov_comm (x y : List ℚ) : pairCov x y = pairCov y x := by
  unfold pairCov
  rw [zip_map_mul_comm]
  have hlen : (x.zip y).length = (y.zip x).length := by
    simp [List.length_zip, Nat.min_comm]
  rw [hlen]

lemma zip_self_map_sq (x : List ℚ) (m : ℚ) :
    (x.zip x).map (fun p => (p.1 - m) * (p.2 - m)) = x.map (fun a => (a - m) ^ 2) := by
  induction x with
  | nil => simp
  | cons hd tl ih =>
      simp only [List.zip_cons_cons, List.map_cons, List.cons.injEq]
      exact ⟨by ring, ih⟩

lemma pairCov_self (x : List ℚ) : pairCov x x = sampleVariance x := by
  unfold pairCov sampleVariance
  rw [zip_self_map_sq]
  have hlen : ((x.zip x).length : ℚ) = (x.length : ℚ) := by
    simp [List.length_zip]
  rw [hlen]

/-- C5: whenever the covariance estimator succeeds, the produced matrix is
exactly symmetric (`cov[i][j] = cov[j][i]` for all indices, by the mirrored
construction), every entry equals the pairwise sample covariance of the
globally aligned series, and every diagonal entry equals the sample
variance of the corresponding aligned instrument series. -/
theorem covariance_symmetric_diagonal (series : List (List (Nat × ℚ)))
    (M : List (List ℚ)) (h : covarianceMatrix series = .ok M) :
    (∀ i j, matrixEntry M i j = matrixEntry M j i) ∧
    (∀ i j, i < series.length → j < series.length →
      matrixEntry M i j =
        pairCov (alignSeries (commonTimestamps series) (series.getD i []))
          (alignSeries (commonTimestamps series) (series.getD j []))) ∧
    (∀ i, i < series.length →
      matrixEntry M i i =
        sampleVariance (alignSeries (commonTimestamps series) (series.getD i []))) := by
  have hM : M = covMatrixOf (series.map (alignSeries (commonTimestamps series))) := by
    unfold covarianceMatrix at h
    by_cases hc : (commonTimestamps series).length < 2
    · rw [if_pos hc] at h
      cases h
    · rw [if_neg hc] at h
      cases h
      rfl
  subst hM
  set xs := series.map (alignSeries (commonTimestamps series)) with hxs
  have hxslen : xs.length = series.length := by simp [hxs]
  have hget : ∀ i, i < series.length →
      xs.getD i [] = alignSeries (commonTimestamps series) (series.getD i []) := by
    intro i hi
    have h1 : i < xs.length := by omega
    rw [List.getD_eq_getElem _ _ h1]
    have h2 : xs[i] = alignSeries (commonTimestamps series) series[i] := by
      simp [hxs]
    rw [h2]
    congr 1
    exact (List.getD_eq_getElem _ _ hi).symm
  have hentry : ∀ i j, i < series.length → j < series.length →
      matrixEntry (covMatrixOf xs) i j =
        pairCov (alignSeries (commonTimestamps series) (series.getD i []))
          (alignSeries (commonTimestamps series) (series.getD j [])) := by
    intro i j hi hj
    rw [covMatrixOf_entry xs i j (by omega) (by omega)]
    by_cases hij : j < i
    · rw [if_pos hij, hget i hi, hget j hj, pairCov_comm]
    · rw [if_neg hij, hget i hi, hget j hj]
  refine ⟨?_, hentry, ?_⟩
  · intro i j
    rcases Nat.lt_or_ge i series.length with hi | hi
    · rcases Nat.lt_or_ge j series.length with hj | hj
      · rw [hentry i j hi hj, hentry j i hj hi, pairCov_comm]
      · rw [covMatrixOf_entry_oob xs i j (by omega), covMatrixOf_entry_oob xs j i (by omega)]
    · rw [covMatrixOf_entry_oob xs i j (by omega), covMatrixOf_entry_oob xs j i (by omega)]
  · intro i hi
    rw [hentry i i hi hi, pairCov_self]

/-- C5 witness: the theorem applied to two concrete dated return series
sharing the two timestamps `0` and `1`. -/
theorem covariance_symmetric_diagonal_witness :
    covarianceMatrix [ [(0, 1/10), (1, 1/5)], [(0, 3/10), (1, 1/10)] ] =
      .ok (covMatrixOf ([ [(0, 1/10), (1, 1/5)], [(0, 3/10), (1, 1/10)] ].map
        (alignSeries (commonTimestamps [ [(0, 1/10), (1, 1/5)], [(0, 3/10), (1, 1/10)] ])))) ∧
    (∀ i j, matrixEntry (covMatrixOf ([ [(0, 1/10), (1, 1/5)], [(0, 3/10), (1, 1/10)] ].map
        (alignSeries (commonTimestamps [ [(0, 1/10), (1, 1/5)], [(0, 3/10), (1, 1/10)] ])))) i j =
      matrixEntry (covMatrixOf ([ [(0, 1/10), (1, 1/5)], [(0, 3/10), (1, 1/10)] ].map
        (alignSeries (commonTimestamps [ [(0, 1/10), (1, 1/5)], [(0, 3/10), (1, 1/10)] ])))) j i) := by
  have hok : covarianceMatrix [ [(0, 1/10), (1, 1/5)], [(0, 3/10), (1, 1/10)] ] =
      .ok (covMatrixOf ([ [(0, 1/10), (1, 1/5)], [(0, 3/10), (1, 1/10)] ].map
        (alignSeries (commonTimestamps [ [(0, 1/10), (1, 1/5)], [(0, 3/10), (1, 1/10)] ])))) := by
    unfold covarianceMatrix
    rw [if_neg]
    have hts : commonTimestamps [ [((0:Nat), (1:ℚ)/10), (1, 1/5)], [(0, 3/10), (1, 1/10)] ] =
        [0, 1] := by
      simp [commonTimestamps, timestampsOf, List.filter, List.all]
    rw [hts]
    simp
  exact ⟨hok, (covariance_symmetric_diagonal _ _ hok).1⟩

lemma bisect_never (f : ℚ → ℚ) (target : ℚ)
    (h : ∀ x, ¬ |f x - target| < ivTol) (n : Nat) :
    ∀ lo hi, bisect f target lo hi n = none := by
  induction n with
  | zero => intro lo hi; rfl
  | succ k ih =>
      intro lo hi
      unfold bisect
      rw [if_neg (h _)]
      split
      · exact ih _ _
      · exact ih _ _

/-- C9: a contract whose implied-volatility root-find fails with
`NoConvergenceError` fails alone: the surface built from any contract list
containing it carries exactly the points of the other contracts (the build
is never aborted), the failing contract is reported in the failure list,
and every other contract whose root-find succeeds contributes its point to
the resulting partial surface. -/
theorem surface_isolates_failures (pm : OptionContract → ℚ → ℚ)
    (l1 l2 : List OptionContract) (c : OptionContract) (e : FinError)
    (h : solveContract pm c = .error e) :
    (buildSurface pm (l1 ++ c :: l2)).points =
      (buildSurface pm l1).points ++ (buildSurface pm l2).points ∧
    (c, e) ∈ (buildSurface pm (l1 ++ c :: l2)).failures ∧
    (∀ c2 ∈ l1 ++ c :: l2, ∀ p, solveContract pm c2 = .ok p →
      p ∈ (buildSurface pm (l1 ++ c :: l2)).points) := by
  refine ⟨?_, ?_, ?_⟩
  · unfold buildSurface
    simp only [List.filterMap_append, List.filterMap_cons, h, Except.toOption]
  · unfold buildSurface
    simp only [List.mem_filterMap]
    exact ⟨c, by simp, by rw [h]⟩
  · intro c2 hc2 p hp
    unfold buildSurface
    simp only [List.mem_filterMap]
    exact ⟨c2, hc2, by rw [hp]; rfl⟩

/-- C9 witness: with the pricing family that maps a strike-`1` contract to
the identity price curve and any other contract to the constant-`0` curve,
the strike-`2` contract with market price `1` never converges, while the
strike-`1` contract priced at the first bisection midpoint converges at
once: the build yields the partial surface with the good point and reports
the bad contract. -/
theorem surface_isolates_failures_witness :
    solveContract
        (fun c sigma => if c.strike = 1 then sigma else 0)
        ⟨2, 1, 1, .call, 1, 0⟩ = .error .noConvergence ∧
    (buildSurface (fun c sigma => if c.strike = 1 then sigma else 0)
        ([⟨1, 1, 50001/20000, .call, 1, 0⟩] ++ ⟨2, 1, 1, .call, 1, 0⟩ :: [])).points =
      (buildSurface (fun c sigma => if c.strike = 1 then sigma else 0)
        [⟨1, 1, 50001/20000, .call, 1, 0⟩]).points ++
      (buildSurface (fun c sigma => if c.strike = 1 then sigma else 0) []).points ∧
    (⟨(⟨2, 1, 1, .call, 1, 0⟩ : OptionContract), FinError.noConvergence⟩ : _ × _) ∈
      (buildSurface (fun c sigma => if c.strike = 1 then sigma else 0)
        ([⟨1, 1, 50001/20000, .call, 1, 0⟩] ++ ⟨2, 1, 1, .call, 1, 0⟩ :: [])).failures := by
  have hfail : solveContract
      (fun c sigma => if c.strike = 1 then sigma else 0)
      ⟨2, 1, 1, .call, 1, 0⟩ = .error .noConvergence := by
    unfold solveContract
    have hnone := bisect_never
      ((fun (c : OptionContract) (sigma : ℚ) => if c.strike = 1 then sigma else 0)
        ⟨2, 1, 1, .call, 1, 0⟩)
      (OptionContract.market_price ⟨2, 1, 1, .call, 1, 0⟩)
      (by
        intro x
        show ¬ |(if (2:ℚ) = 1 then x else 0) - 1| < ivTol
        rw [if_neg (by norm_num : ¬ (2:ℚ) = 1)]
        norm_num [ivTol])
      ivCap ivLo ivHi
    rw [hnone]
  have h := surface_isolates_failures
    (fun c sigma => if c.strike = 1 then sigma else 0)
    [⟨1, 1, 50001/20000, .call, 1, 0⟩] []
    ⟨2, 1, 1, .call, 1, 0⟩ .noConvergence hfail
  exact ⟨hfail, h.1, h.2.1⟩

lemma feasibleCheck_iff (cs : ConstraintSet) (w : List ℚ) :
    feasibleCheck cs w = true ↔ FeasibleW cs w := by
  unfold feasibleCheck FeasibleW
  simp only [Bool.and_eq_true, beq_iff_eq, List.all_eq_true, decide_eq_true_eq]
  constructor
  · rintro ⟨⟨⟨h1, h2⟩, h3⟩, h4⟩
    exact ⟨h1, h2, fun p hp => h3 p hp, fun fam hf b hb => h4 fam hf b hb⟩
  · rintro ⟨h1, h2, h3, h4⟩
    exact ⟨⟨⟨h1, h2⟩, fun p hp => h3 p hp⟩, fun fam hf b hb => h4 fam hf b hb⟩

lemma sum_sub_nonneg (l : List (ℚ × ℚ)) (hord : ∀ p ∈ l, p.1 ≤ p.2) :
    0 ≤ (l.map (fun p => p.2 - p.1)).sum := by
  apply List.sum_nonneg
  intro x hx
  obtain ⟨p, hp, hpx⟩ := List.mem_map.mp hx
  have h := hord p hp
  rw [← hpx]
  linarith

lemma fill_spec (l : List (ℚ × ℚ)) (e : ℚ) (hord : ∀ p ∈ l, p.1 ≤ p.2)
    (he0 : 0 ≤ e) (heC : e ≤ (l.map (fun p => p.2 - p.1)).sum) :
    (fill l e).length = l.length ∧
    (fill l e).sum = (l.map Prod.fst).sum + e ∧
    (∀ q ∈ l.zip (fill l e), q.1.1 ≤ q.2 ∧ q.2 ≤ q.1.2) := by
  induction l generalizing e with
  | nil =>
      have he : e = 0 := by
        simp only [List.map_nil, List.sum_nil] at heC
        linarith
      simp [fill, he]
  | cons hd tl ih =>
      obtain ⟨a, b⟩ := hd
      have hab : a ≤ b := hord (a, b) (by simp)
      have htlord : ∀ p ∈ tl, p.1 ≤ p.2 := fun p hp => hord p (by simp [hp])
      set add := min (b - a) e with hadd
      have hadd0 : 0 ≤ add := le_min (by linarith) he0
      have haddle : add ≤ e := min_le_right _ _
      have haddba : add ≤ b - a := min_le_left _ _
      have hrec0 : 0 ≤ e - add := by linarith
      have hrecC : e - add ≤ (tl.map (fun p => p.2 - p.1)).sum := by
        simp only [List.map_cons, List.sum_cons] at heC
        by_cases hc : b - a ≤ e
        · have : add = b - a := min_eq_left hc
          rw [this]
          linarith
        · push_neg at hc
          have : add = e := min_eq_right (le_of_lt hc)
          rw [this]
          have := sum_sub_nonneg tl htlord
          linarith
      obtain ⟨ihlen, ihsum, ihbd⟩ := ih (e - add) htlord hrec0 hrecC
      refine ⟨?_, ?_, ?_⟩
      · simp [fill, ihlen]
      · simp only [fill, List.sum_cons, List.map_cons, ihsum]
        ring
      · intro q hq
        simp only [fill, List.zip_cons_cons, List.mem_cons] at hq
        rcases hq with hq | hq
        · rw [hq]
          constructor
          · simp only
            linarith
          · simp only
            linarith
        · exact ihbd q hq

lemma lookupRem_mem_keys (lbl : String) (rem : List (String × ℚ))
    (h : lbl ∈ remKeys rem) :
    ∃ r, lookupRem lbl rem = some r ∧ (lbl, r) ∈ rem := by
  induction rem with
  | nil => simp [remKeys] at h
  | cons q rest ih =>
      obtain ⟨k, v⟩ := q
      by_cases hk : k = lbl
      · subst hk
        exact ⟨v, by simp [lookupRem], by simp⟩
      · have h2 : lbl ∈ remKeys rest := by
          simp only [remKeys, List.map_cons, List.mem_cons] at h
          rcases h with h | h
          · exact absurd h.symm hk
          · exact h
        obtain ⟨r, hl, hm⟩ := ih h2
        exact ⟨r, by simp [lookupRem, hk, hl], by simp [hm]⟩

lemma remKeys_updateRem (lbl : String) (v : ℚ) (rem : List (String × ℚ)) :
    remKeys (updateRem lbl v rem) = remKeys rem := by
  induction rem with
  | nil => rfl
  | cons q rest ih =>
      obtain ⟨k, w⟩ := q
      by_cases hk : k = lbl
      · simp [updateRem, hk, remKeys]
      · simp only [updateRem, if_neg hk]
        simp only [remKeys, List.map_cons] at ih ⊢
        rw [ih]

lemma mem_updateRem_self (lbl : String) (v : ℚ) (rem : List (String × ℚ))
    (h : lbl ∈ remKeys rem) : (lbl, v) ∈ updateRem lbl v rem := by
  induction rem with
  | nil => simp [remKeys] at h
  | cons q rest ih =>
      obtain ⟨k, w⟩ := q
      by_cases hk : k = lbl
      · subst hk
        simp [updateRem]
      · have h2 : lbl ∈ remKeys rest := by
          simp only [remKeys, List.map_cons, List.mem_cons] at h
          rcases h with h | h
          · exact absurd h.symm hk
          · exact h
        simp only [updateRem, if_neg hk, List.mem_cons]
        exact Or.inr (ih h2)

lemma mem_updateRem_of_ne (q : String × ℚ) (lbl : String) (v : ℚ)
    (rem : List (String × ℚ)) (h : q ∈ updateRem lbl v rem) (hne : q.1 ≠ lbl) :
    q ∈ rem := by
  induction rem with
  | nil => simpa [updateRem] using h
  | cons p rest ih =>
      obtain ⟨k, w⟩ := p
      by_cases hk : k = lbl
      · subst hk
        rw [updateRem, if_pos rfl] at h
        rcases List.mem_cons.mp h with h | h
        · exfalso
          apply hne
          rw [h]
        · exact List.mem_cons_of_mem _ h
      · rw [updateRem, if_neg hk] at h
        rcases List.mem_cons.mp h with h | h
        · rw [h]
          exact List.mem_cons_self _ _
        · exact List.mem_cons_of_mem _ (ih h)

lemma mem_updateRem_of_ne_mem (q : String × ℚ) (lbl : String) (v : ℚ)
    (rem : List (String × ℚ)) (h : q ∈ rem) (hne : q.1 ≠ lbl) :
    q ∈ updateRem lbl v rem := by
  induction rem with
  | nil => simpa [updateRem] using h
  | cons p rest ih =>
      obtain ⟨k, w⟩ := p
      rcases List.mem_cons.mp h with hq | hq
      · subst hq
        rw [updateRem, if_neg (by simpa using hne)]
        exact List.mem_cons_self _ _
      · by_cases hk : k = lbl
        · subst hk
          rw [updateRem, if_pos rfl]
          exact List.mem_cons_of_mem _ hq
        · rw [updateRem, if_neg hk]
          exact List.mem_cons_of_mem _ (ih hq)

lemma mem_rem_unique (rem : List (String × ℚ)) (hnd : (remKeys rem).Nodup)
    (q1 q2 : String × ℚ) (h1 : q1 ∈ rem) (h2 : q2 ∈ rem) (hk : q1.1 = q2.1) :
    q1 = q2 := by
  induction rem with
  | nil => simp at h1
  | cons p rest ih =>
      have hndrest : (remKeys rest).Nodup := by
        simpa [remKeys] using hnd.of_cons
      have hhead : p.1 ∉ remKeys rest := by
        have := hnd
        simp only [remKeys, List.map_cons, List.nodup_cons] at this
        exact fun hc => this.1 (by simpa [remKeys] using hc)
      rcases List.mem_cons.mp h1 with e1 | m1
      · rcases List.mem_cons.mp h2 with e2 | m2
        · rw [e1, e2]
        · exfalso
          apply hhead
          rw [← e1, hk]
          exact List.mem_map_of_mem Prod.fst m2
      · rcases List.mem_cons.mp h2 with e2 | m2
        · exfalso
          apply hhead
          rw [← e2, ← hk]
          exact List.mem_map_of_mem Prod.fst m1
        · exact ih hndrest m1 m2

lemma remValsSum_updateRem (lbl : String) (r v : ℚ) (rem : List (String × ℚ))
    (hnd : (remKeys rem).Nodup) (hmem : (lbl, r) ∈ rem) :
    remValsSum (updateRem lbl v rem) = remValsSum rem - r + v := by
  induction rem with
  | nil => simp at hmem
  | cons p rest ih =>
      obtain ⟨k, w⟩ := p
      have hndrest : (remKeys rest).Nodup := by
        simpa [remKeys] using hnd.of_cons
      by_cases hk : k = lbl
      · subst hk
        have hr : r = w := by
          rcases List.mem_cons.mp hmem with h | h
          · exact (Prod.ext_iff.mp h).2
          · exfalso
            have hin : k ∈ remKeys rest := by
              simpa [remKeys] using List.mem_map_of_mem Prod.fst h
            simp only [remKeys, List.map_cons, List.nodup_cons] at hnd
            exact hnd.1 hin
        subst hr
        rw [updateRem, if_pos rfl]
        simp only [remValsSum, List.map_cons, List.sum_cons]
        ring
      · have hmem2 : (lbl, r) ∈ rest := by
          rcases List.mem_cons.mp hmem with h | h
          · exact absurd (Prod.ext_iff.mp h).1.symm hk
          · exact h
        rw [updateRem, if_neg hk]
        simp only [remValsSum, List.map_cons, List.sum_cons]
        have h2 := ih hndrest hmem2
        simp only [remValsSum] at h2
        rw [h2]
        ring

lemma assetCapSum_nonneg (A : List (String × (ℚ × ℚ))) (lbl : String)
    (hord : ∀ s ∈ A, s.2.1 ≤ s.2.2) : 0 ≤ assetCapSum A lbl := by
  apply List.sum_nonneg
  intro x hx
  obtain ⟨s, hs, hsx⟩ := List.mem_map.mp hx
  have := hord s (List.mem_of_mem_filter hs)
  rw [← hsx]
  linarith

lemma fillPass_spec (A : List (String × (ℚ × ℚ))) (rem : List (String × ℚ))
    (hnd : (remKeys rem).Nodup)
    (hkeys : ∀ s ∈ A, s.1 ∈ remKeys rem)
    (hbound : ∀ q ∈ rem, 0 ≤ q.2 ∧ q.2 ≤ assetCapSum A q.1)
    (hord : ∀ s ∈ A, s.2.1 ≤ s.2.2) :
    (fillPass A rem).length = A.length ∧
    (fillPass A rem).sum = (A.map (fun s => s.2.1)).sum + remValsSum rem ∧
    (∀ p ∈ A.zip (fillPass A rem), p.1.2.1 ≤ p.2 ∧ p.2 ≤ p.1.2.2) ∧
    (∀ q ∈ rem, gVal A (fillPass A rem) q.1 = assetLoSum A q.1 + q.2) := by
  induction A generalizing rem with
  | nil =>
      have hz : ∀ q ∈ rem, q.2 = 0 := by
        intro q hq
        have h := hbound q hq
        have hcap : assetCapSum [] q.1 = 0 := by simp [assetCapSum]
        rw [hcap] at h
        linarith [h.1, h.2]
      have hsum : remValsSum rem = 0 := by
        unfold remValsSum
        apply List.sum_eq_zero
        intro x hx
        obtain ⟨q, hq, hqx⟩ := List.mem_map.mp hx
        rw [← hqx]
        exact hz q hq
      refine ⟨rfl, by simp [fillPass, hsum], by simp [fillPass], ?_⟩
      intro q hq
      simp [fillPass, gVal, assetLoSum, hz q hq]
  | cons s A' ih =>
      obtain ⟨lbl, a, b⟩ := s
      have hl : lbl ∈ remKeys rem := hkeys _ (List.mem_cons_self _ _)
      obtain ⟨r, hlook, hmem⟩ := lookupRem_mem_keys lbl rem hl
      have hab : a ≤ b := hord _ (List.mem_cons_self _ _)
      have hordA' : ∀ s ∈ A', s.2.1 ≤ s.2.2 := fun s hs => hord s (List.mem_cons_of_mem _ hs)
      have hr0 : 0 ≤ r := (hbound _ hmem).1
      have hrcap : r ≤ assetCapSum ((lbl, (a, b)) :: A') lbl := (hbound _ hmem).2
      have hcapcons : assetCapSum ((lbl, (a, b)) :: A') lbl = (b - a) + assetCapSum A' lbl := by
        simp [assetCapSum, List.filter_cons]
      rw [hcapcons] at hrcap
      set add := min (b - a) r with hadddef
      have hadd0 : 0 ≤ add := le_min (by linarith) hr0
      have haddle : add ≤ r := min_le_right _ _
      have haddba : add ≤ b - a := min_le_left _ _
      set rem2 := updateRem lbl (r - add) rem with hrem2
      have hnd2 : (remKeys rem2).Nodup := by
        rw [hrem2, remKeys_updateRem]
        exact hnd
      have hkeys2 : ∀ s ∈ A', s.1 ∈ remKeys rem2 := by
        intro s hs
        rw [hrem2, remKeys_updateRem]
        exact hkeys s (List.mem_cons_of_mem _ hs)
      have hbound2 : ∀ q ∈ rem2, 0 ≤ q.2 ∧ q.2 ≤ assetCapSum A' q.1 := by
        intro q hq
        by_cases hqk : q.1 = lbl
        · have hqe : q = (lbl, r - add) := by
            apply mem_rem_unique rem2 hnd2 q (lbl, r - add)
            · exact hq
            · exact hrem2 ▸ mem_updateRem_self lbl (r - add) rem hl
            · exact hqk
          rw [hqe]
          constructor
          · simp only
            linarith
          · simp only
            by_cases hc : b - a ≤ r
            · have he : add = b - a := min_eq_left hc
              rw [he]
              linarith
            · push_neg at hc
              have he : add = r := min_eq_right (le_of_lt hc)
              rw [he]
              have := assetCapSum_nonneg A' lbl hordA'
              linarith
        · have hqrem : q ∈ rem := mem_updateRem_of_ne q lbl (r - add) rem (hrem2 ▸ hq) hqk
          have h := hbound q hqrem
          have hcapq : assetCapSum ((lbl, (a, b)) :: A') q.1 = assetCapSum A' q.1 := by
            simp only [assetCapSum, List.filter_cons]
            rw [if_neg]
            simp only [beq_iff_eq]
            exact fun hc => hqk hc.symm
          rw [hcapq] at h
          exact h
      obtain ⟨ihlen, ihsum, ihbox, ihg⟩ := ih rem2 hnd2 hkeys2 hbound2 hordA'
      have hfp : fillPass ((lbl, (a, b)) :: A') rem = (a + add) :: fillPass A' rem2 := by
        simp only [fillPass, hlook]
      refine ⟨?_, ?_, ?_, ?_⟩
      · rw [hfp]
        simp [ihlen]
      · rw [hfp]
        simp only [List.sum_cons, List.map_cons, ihsum]
        have hv2 : remValsSum rem2 = remValsSum rem - r + (r - add) :=
          remValsSum_updateRem lbl r (r - add) rem hnd hmem
        rw [hv2]
        ring
      · intro p hp
        rw [hfp] at hp
        simp only [List.zip_cons_cons, List.mem_cons] at hp
        rcases hp with hp | hp
        · rw [hp]
          constructor
          · simp only
            linarith
          · simp only
            linarith
        · exact ihbox p hp
      · intro q hq
        rw [hfp]
        by_cases hqk : q.1 = lbl
        · have hqe : q = (lbl, r) := mem_rem_unique rem hnd q (lbl, r) hq hmem hqk
          rw [hqe]
          simp only
          have hg2 := ihg (lbl, r - add) (hrem2 ▸ mem_updateRem_self lbl (r - add) rem hl)
          simp only at hg2
          have hgv : gVal ((lbl, (a, b)) :: A') ((a + add) :: fillPass A' rem2) lbl =
              (a + add) + gVal A' (fillPass A' rem2) lbl := by
            simp [gVal, List.filter_cons]
          have hlo : assetLoSum ((lbl, (a, b)) :: A') lbl = a + assetLoSum A' lbl := by
            simp [assetLoSum, List.filter_cons]
          rw [hgv, hlo, hg2]
          ring
        · have hqrem2 : q ∈ rem2 :=
            hrem2 ▸ mem_updateRem_of_ne_mem q lbl (r - add) rem hq hqk
          have hg2 := ihg q hqrem2
          have hgv : gVal ((lbl, (a, b)) :: A') ((a + add) :: fillPass A' rem2) q.1 =
              gVal A' (fillPass A' rem2) q.1 := by
            simp only [gVal, List.zip_cons_cons, List.filter_cons]
            rw [if_neg]
            simp only [beq_iff_eq]
            exact fun hc => hqk hc.symm
          have hlo : assetLoSum ((lbl, (a, b)) :: A') q.1 = assetLoSum A' q.1 := by
            simp only [assetLoSum, List.filter_cons]
            rw [if_neg]
            simp only [beq_iff_eq]
            exact fun hc => hqk hc.symm
          rw [hgv, hlo, hg2]

lemma sum_map_add {α : Type} (l : List α) (f g : α → ℚ) :
    (l.map (fun a => f a + g a)).sum = (l.map f).sum + (l.map g).sum := by
  induction l with
  | nil => simp
  | cons a t ih =>
      simp only [List.map_cons, List.sum_cons, ih]
      ring

lemma sum_map_sub {α : Type} (l : List α) (f g : α → ℚ) :
    (l.map (fun a => f a - g a)).sum = (l.map f).sum - (l.map g).sum := by
  induction l with
  | nil => simp
  | cons a t ih =>
      simp only [List.map_cons, List.sum_cons, ih]
      ring

lemma sum_indicator (labels : List String) (x : String) (c : ℚ)
    (hnd : labels.Nodup) (hx : x ∈ labels) :
    (labels.map (fun l => if x = l then c else 0)).sum = c := by
  induction labels with
  | nil => simp at hx
  | cons a t ih =>
      have hndt : t.Nodup := hnd.of_cons
      have hat : a ∉ t := (List.nodup_cons.mp hnd).1
      rcases List.mem_cons.mp hx with h | h
      · subst h
        simp only [List.map_cons, List.sum_cons]
        have hz : (t.map (fun l => if x = l then c else 0)).sum = 0 := by
          apply List.sum_eq_zero
          intro y hy
          obtain ⟨l, hl, hly⟩ := List.mem_map.mp hy
          rw [← hly, if_neg]
          intro hc
          exact hat (hc ▸ hl)
        simp [hz]
      · have hxa : x ≠ a := fun hc => hat (hc ▸ h)
        simp only [List.map_cons, List.sum_cons, if_neg hxa, ih hndt h]
        ring

lemma partition_sum {α : Type} (key : α → String) (f : α → ℚ) (A : List α)
    (labels : List String) (hnd : labels.Nodup) (hk : ∀ s ∈ A, key s ∈ labels) :
    (labels.map (fun l => ((A.filter (fun s => key s == l)).map f).sum)).sum =
      (A.map f).sum := by
  induction A with
  | nil => simp
  | cons s A' ih =>
      have hterm : ∀ l ∈ labels,
          (((s :: A').filter (fun x => key x == l)).map f).sum =
            (if key s = l then f s else 0) +
              ((A'.filter (fun x => key x == l)).map f).sum := by
        intro l _
        by_cases hc : key s = l
        · simp [List.filter_cons, hc]
        · simp [List.filter_cons, hc]
      rw [List.map_congr_left hterm, sum_map_add,
        sum_indicator labels (key s) (f s) hnd (hk s (List.mem_cons_self _ _)),
        ih (fun t ht => hk t (List.mem_cons_of_mem _ ht))]
      simp

lemma groupSum_eq_gVal (ms : List String) (boxes : List (ℚ × ℚ)) (w : List ℚ)
    (lbl : String) (hml : ms.length = boxes.length) :
    groupSum ms lbl w = gVal (ms.zip boxes) w lbl := by
  induction ms generalizing boxes w with
  | nil => simp [groupSum, gVal]
  | cons m ms' ih =>
      cases boxes with
      | nil => simp at hml
      | cons bx boxes' =>
          cases w with
          | nil => simp [groupSum, gVal]
          | cons x w' =>
              have hml' : ms'.length = boxes'.length := by simpa using hml
              by_cases hc : m = lbl
              · simp only [groupSum, gVal, List.zip_cons_cons, List.filter_cons,
                  hc] at ih ⊢
                simp only [beq_self_eq_true, if_pos, List.map_cons, List.sum_cons]
                have := ih boxes' w' hml'
                simp only [groupSum, gVal] at this
                rw [this]
              · simp only [groupSum, gVal, List.zip_cons_cons, List.filter_cons] at ih ⊢
                rw [if_neg (by simpa using hc), if_neg (by simpa using hc)]
                exact ih boxes' w' hml'

lemma groupSum_not_mem (ms : List String) (lbl : String) (w : List ℚ)
    (h : lbl ∉ ms) : groupSum ms lbl w = 0 := by
  induction ms generalizing w with
  | nil => simp [groupSum]
  | cons m ms' ih =>
      cases w with
      | nil => simp [groupSum]
      | cons x w' =>
          have hm : m ≠ lbl := fun hc => h (hc ▸ List.mem_cons_self _ _)
          have h' : lbl ∉ ms' := fun hc => h (List.mem_cons_of_mem _ hc)
          simp only [groupSum, List.zip_cons_cons, List.filter_cons]
          rw [if_neg (by simpa using hm)]
          exact ih w' h'

lemma groupLoSum_eq (cs : ConstraintSet) (lbl : String) :
    groupLoSum cs lbl = assetLoSum ((famOf cs).memberships.zip cs.boxes) lbl := by
  simp [groupLoSum, groupBoxes, assetLoSum, List.map_map]
  rfl

lemma groupUpSum_eq (cs : ConstraintSet) (lbl : String) :
    groupUpSum cs lbl = assetUpSum ((famOf cs).memberships.zip cs.boxes) lbl := by
  simp [groupUpSum, groupBoxes, assetUpSum, List.map_map]
  rfl

lemma assetCapSum_eq (A : List (String × (ℚ × ℚ))) (lbl : String) :
    assetCapSum A lbl = assetUpSum A lbl - assetLoSum A lbl := by
  unfold assetCapSum assetUpSum assetLoSum
  rw [← sum_map_sub]

lemma gVal_bounds (A : List (String × (ℚ × ℚ))) (w : List ℚ) (lbl : String)
    (hlen : A.length = w.length)
    (hbox : ∀ p ∈ A.zip w, p.1.2.1 ≤ p.2 ∧ p.2 ≤ p.1.2.2) :
    assetLoSum A lbl ≤ gVal A w lbl ∧ gVal A w lbl ≤ assetUpSum A lbl := by
  induction A generalizing w with
  | nil => simp [gVal, assetLoSum, assetUpSum]
  | cons s A' ih =>
      cases w with
      | nil => simp at hlen
      | cons x w' =>
          have hlen' : A'.length = w'.length := by simpa using hlen
          have hbox' : ∀ p ∈ A'.zip w', p.1.2.1 ≤ p.2 ∧ p.2 ≤ p.1.2.2 :=
            fun p hp => hbox p (by simp [hp])
          have hhead := hbox (s, x) (by simp)
          have hh1 : s.2.1 ≤ x := hhead.1
          have hh2 : x ≤ s.2.2 := hhead.2
          obtain ⟨ih1, ih2⟩ := ih w' hlen' hbox'
          by_cases hc : s.1 = lbl
          · have hif : (s.1 == lbl) = true := by simpa using hc
            have hgv : gVal (s :: A') (x :: w') lbl = x + gVal A' w' lbl := by
              simp [gVal, List.filter_cons, hif]
            have hlo : assetLoSum (s :: A') lbl = s.2.1 + assetLoSum A' lbl := by
              simp [assetLoSum, List.filter_cons, hif]
            have hup : assetUpSum (s :: A') lbl = s.2.2 + assetUpSum A' lbl := by
              simp [assetUpSum, List.filter_cons, hif]
            rw [hgv, hlo, hup]
            constructor
            · linarith
            · linarith
          · have hif : (s.1 == lbl) = false := by simpa using hc
            have hgv : gVal (s :: A') (x :: w') lbl = gVal A' w' lbl := by
              simp [gVal, List.filter_cons, hif]
            have hlo : assetLoSum (s :: A') lbl = assetLoSum A' lbl := by
              simp [assetLoSum, List.filter_cons, hif]
            have hup : assetUpSum (s :: A') lbl = assetUpSum A' lbl := by
              simp [assetUpSum, List.filter_cons, hif]
            rw [hgv, hlo, hup]
            exact ⟨ih1, ih2⟩

lemma box_bridge (ms : List String) (boxes : List (ℚ × ℚ)) (w : List ℚ)
    (hml : ms.length = boxes.length)
    (h : ∀ p ∈ (ms.zip boxes).zip w, p.1.2.1 ≤ p.2 ∧ p.2 ≤ p.1.2.2) :
    ∀ p ∈ boxes.zip w, p.1.1 ≤ p.2 ∧ p.2 ≤ p.1.2 := by
  induction ms generalizing boxes w with
  | nil =>
      cases boxes with
      | nil => simp
      | cons bx boxes' => simp at hml
  | cons m ms' ih =>
      cases boxes with
      | nil => simp
      | cons bx boxes' =>
          cases w with
          | nil => simp
          | cons x w' =>
              intro p hp
              rcases List.mem_cons.mp (by simpa using hp) with hp2 | hp2
              · have := h ((m, bx), x) (by simp)
                rw [hp2]
                exact this
              · exact ih boxes' w' (by simpa using hml)
                  (fun q hq => h q (by simp [hq])) p hp2

lemma box_bridge2 (ms : List String) (boxes : List (ℚ × ℚ)) (w : List ℚ)
    (h : ∀ p ∈ boxes.zip w, p.1.1 ≤ p.2 ∧ p.2 ≤ p.1.2) :
    ∀ p ∈ (ms.zip boxes).zip w, p.1.2.1 ≤ p.2 ∧ p.2 ≤ p.1.2.2 := by
  induction ms generalizing boxes w with
  | nil => simp
  | cons m ms' ih =>
      cases boxes with
      | nil => simp
      | cons bx boxes' =>
          cases w with
          | nil => simp
          | cons x w' =>
              intro p hp
              rcases List.mem_cons.mp (by simpa using hp) with hp2 | hp2
              · have := h (bx, x) (by simp)
                rw [hp2]
                exact this
              · exact ih boxes' w' (fun q hq => h q (by simp [hq])) p hp2

lemma findBound_eq (bounds : List (String × ℚ × ℚ))
    (hnd : (bounds.map Prod.fst).Nodup) (b : String × ℚ × ℚ) (hb : b ∈ bounds) :
    findBound bounds b.1 = some b.2 := by
  induction bounds with
  | nil => simp at hb
  | cons p rest ih =>
      have hndrest : (rest.map Prod.fst).Nodup := by
        simpa using hnd.of_cons
      have hhead : p.1 ∉ rest.map Prod.fst := by
        simp only [List.map_cons, List.nodup_cons] at hnd
        exact hnd.1
      rcases List.mem_cons.mp hb with hb2 | hb2
      · rw [hb2]
        simp [findBound, List.find?_cons]
      · have hne : p.1 ≠ b.1 := by
          intro hc
          exact hhead (hc ▸ List.mem_map_of_mem Prod.fst hb2)
        have hif : (p.1 == b.1) = false := by
          simp only [beq_eq_false_iff_ne, ne_eq]
          exact hne
        unfold findBound
        rw [List.find?_cons, hif]
        simpa [findBound] using ih hndrest hb2

lemma findBound_mem (bounds : List (String × ℚ × ℚ)) (lbl : String) (v : ℚ × ℚ)
    (h : findBound bounds lbl = some v) : (lbl, v) ∈ bounds := by
  unfold findBound at h
  cases hf : bounds.find? (fun b => b.1 == lbl) with
  | none => rw [hf] at h; simp at h
  | some b =>
      rw [hf] at h
      have h2 : b.2 = v := by simpa using h
      have hmem := List.mem_of_find?_eq_some hf
      have hp := List.find?_some hf
      simp only [beq_iff_eq] at hp
      have hbe : b = (lbl, v) := by
        obtain ⟨b1, b2⟩ := b
        have hp2 : b1 = lbl := hp
        have hv2 : b2 = v := h2
        rw [hp2, hv2]
      exact hbe ▸ hmem

lemma effInterval_lo_ge (cs : ConstraintSet) (lbl : String) :
    groupLoSum cs lbl ≤ (effInterval cs lbl).1 := by
  unfold effInterval
  cases findBound (famOf cs).bounds lbl with
  | none => simp
  | some b => simp [le_max_right]

lemma effInterval_hi_le (cs : ConstraintSet) (lbl : String) :
    (effInterval cs lbl).2 ≤ groupUpSum cs lbl := by
  unfold effInterval
  cases findBound (famOf cs).bounds lbl with
  | none => simp
  | some b => simp [min_le_right]

lemma validCheck_boxes (cs : ConstraintSet) (hv : validCheck cs = true) :
    ∀ p ∈ cs.boxes, p.1 ≤ p.2 := by
  unfold validCheck at hv
  simp only [Bool.and_eq_true, List.all_eq_true, decide_eq_true_eq] at hv
  exact hv.1

lemma validCheck_fam (cs : ConstraintSet) (hv : validCheck cs = true)
    (fam : CategoricalConstraint) (hf : fam ∈ cs.categorical) :
    fam.memberships.length = cs.boxes.length ∧
    (fam.bounds.map Prod.fst).Nodup ∧
    (∀ b ∈ fam.bounds, b.2.1 ≤ b.2.2) := by
  unfold validCheck at hv
  simp only [Bool.and_eq_true, List.all_eq_true, decide_eq_true_eq, beq_iff_eq] at hv
  have h := hv.2 fam hf
  exact ⟨h.1.1, h.1.2, h.2⟩

lemma famOf_length (cs : ConstraintSet) (hv : validCheck cs = true) :
    (famOf cs).memberships.length = cs.boxes.length := by
  cases hcat : cs.categorical with
  | nil => simp [famOf, hcat]
  | cons fam rest =>
      have hmem : fam ∈ cs.categorical := by
        rw [hcat]
        exact List.mem_cons_self _ _
      have h := (validCheck_fam cs hv fam hmem).1
      simpa [famOf, hcat] using h

lemma famOf_nodup (cs : ConstraintSet) (hv : validCheck cs = true) :
    ((famOf cs).bounds.map Prod.fst).Nodup := by
  cases hcat : cs.categorical with
  | nil => simp [famOf, hcat]
  | cons fam rest =>
      have hmem : fam ∈ cs.categorical := by
        rw [hcat]
        exact List.mem_cons_self _ _
      have h := (validCheck_fam cs hv fam hmem).2.1
      simpa [famOf, hcat] using h

lemma famOf_head (cs : ConstraintSet) (fam : CategoricalConstraint)
    (rest : List CategoricalConstraint) (hcat : cs.categorical = fam :: rest) :
    famOf cs = fam := by
  simp [famOf, hcat]

lemma precheck_iff (cs : ConstraintSet) : precheck cs = true ↔
    (∀ lbl ∈ labelsOf cs, (effInterval cs lbl).1 ≤ (effInterval cs lbl).2) ∧
    ((labelsOf cs).map (fun lbl => (effInterval cs lbl).1)).sum ≤ 1 ∧
    (1 : ℚ) ≤ ((labelsOf cs).map (fun lbl => (effInterval cs lbl).2)).sum ∧
    (∀ b ∈ (famOf cs).bounds,
      b.1 ∈ (famOf cs).memberships ∨ (b.2.1 ≤ 0 ∧ 0 ≤ b.2.2)) := by
  unfold precheck
  simp only [Bool.and_eq_true, List.all_eq_true, decide_eq_true_eq, Bool.or_eq_true,
    List.contains_eq_any_beq, List.any_eq_true, beq_iff_eq]
  constructor
  · rintro ⟨⟨⟨h1, h2⟩, h3⟩, h4⟩
    refine ⟨h1, h2, h3, fun b hb => ?_⟩
    rcases h4 b hb with h | h
    · obtain ⟨x, hx, hxe⟩ := h
      exact Or.inl (hxe ▸ hx)
    · exact Or.inr h
  · rintro ⟨h1, h2, h3, h4⟩
    refine ⟨⟨⟨h1, h2⟩, h3⟩, fun b hb => ?_⟩
    rcases h4 b hb with h | h
    · exact Or.inl ⟨b.1, h, rfl⟩
    · exact Or.inr h

lemma ivsOf_map_fst (cs : ConstraintSet) :
    (ivsOf cs).map Prod.fst = (labelsOf cs).map (fun l => (effInterval cs l).1) := by
  simp [ivsOf, List.map_map]

lemma ivsOf_map_snd (cs : ConstraintSet) :
    (ivsOf cs).map Prod.snd = (labelsOf cs).map (fun l => (effInterval cs l).2) := by
  simp [ivsOf, List.map_map]

lemma svalsOf_spec (cs : ConstraintSet) (hpre : precheck cs = true) :
    (svalsOf cs).length = (labelsOf cs).length ∧
    (svalsOf cs).sum = 1 ∧
    (∀ p ∈ (labelsOf cs).zip (svalsOf cs),
      (effInterval cs p.1).1 ≤ p.2 ∧ p.2 ≤ (effInterval cs p.1).2) := by
  obtain ⟨hint, hlow, hhigh, _⟩ := (precheck_iff cs).mp hpre
  have hord : ∀ p ∈ ivsOf cs, p.1 ≤ p.2 := by
    intro p hp
    obtain ⟨l, hl, hlp⟩ := List.mem_map.mp hp
    rw [← hlp]
    exact hint l hl
  have he0 : 0 ≤ 1 - ((ivsOf cs).map Prod.fst).sum := by
    rw [ivsOf_map_fst]
    linarith
  have heC : 1 - ((ivsOf cs).map Prod.fst).sum ≤
      ((ivsOf cs).map (fun p => p.2 - p.1)).sum := by
    rw [sum_map_sub (ivsOf cs) Prod.snd Prod.fst, ivsOf_map_fst, ivsOf_map_snd]
    linarith
  obtain ⟨hlen, hsum, hbd⟩ := fill_spec (ivsOf cs) _ hord he0 heC
  refine ⟨?_, ?_, ?_⟩
  · rw [svalsOf, hlen]
    simp [ivsOf]
  · rw [svalsOf, hsum]
    ring
  · intro p hp
    have hmemiv : (effInterval cs p.1, p.2) ∈ (ivsOf cs).zip (svalsOf cs) := by
      have hz : (ivsOf cs).zip (svalsOf cs) =
          ((labelsOf cs).zip (svalsOf cs)).map (Prod.map (effInterval cs) id) := by
        unfold ivsOf
        exact List.zip_map_left _ _ _
      rw [hz]
      exact List.mem_map_of_mem _ hp
    have := hbd (effInterval cs p.1, p.2) hmemiv
    exact this

lemma startPoint_sound (cs : ConstraintSet) (hv : validCheck cs = true)
    (hcat : cs.categorical.length ≤ 1) (w0 : List ℚ)
    (hsp : startPoint cs = some w0) : FeasibleW cs w0 := by
  unfold startPoint at hsp
  by_cases hpre : precheck cs = true
  case neg =>
    rw [if_neg hpre] at hsp
    cases hsp
  rw [if_pos hpre] at hsp
  have hw0 : w0 = fillPass (assetsOf cs) (remOf cs) := by
    injection hsp with h
    exact h.symm
  subst hw0
  obtain ⟨hint, hlow, hhigh, hempty⟩ := (precheck_iff cs).mp hpre
  have hml := famOf_length cs hv
  obtain ⟨hsvlen, hsvsum, hsvbd⟩ := svalsOf_spec cs hpre
  have hlabnd : (labelsOf cs).Nodup := List.nodup_dedup _
  have hkeq : remKeys (remOf cs) = labelsOf cs := by
    unfold remKeys remOf
    rw [List.map_map]
    have hcomp : (Prod.fst ∘ fun p : String × ℚ => (p.1, p.2 - groupLoSum cs p.1)) =
        Prod.fst := rfl
    rw [hcomp]
    exact List.map_fst_zip _ _ (le_of_eq hsvlen.symm)
  have hnd : (remKeys (remOf cs)).Nodup := by
    rw [hkeq]
    exact hlabnd
  have hkeys : ∀ s ∈ assetsOf cs, s.1 ∈ remKeys (remOf cs) := by
    intro s hs
    rw [hkeq]
    unfold assetsOf at hs
    obtain ⟨s1, s2⟩ := s
    have hin : s1 ∈ (famOf cs).memberships := (List.mem_zip hs).1
    exact List.mem_dedup.mpr hin
  have hordA : ∀ s ∈ assetsOf cs, s.2.1 ≤ s.2.2 := by
    intro s hs
    unfold assetsOf at hs
    obtain ⟨s1, s2⟩ := s
    exact validCheck_boxes cs hv s2 (List.mem_zip hs).2
  have hremmem : ∀ q ∈ remOf cs, ∃ p ∈ (labelsOf cs).zip (svalsOf cs),
      q = (p.1, p.2 - groupLoSum cs p.1) := by
    intro q hq
    obtain ⟨p, hp, hpq⟩ := List.mem_map.mp hq
    exact ⟨p, hp, hpq.symm⟩
  have hbound : ∀ q ∈ remOf cs, 0 ≤ q.2 ∧ q.2 ≤ assetCapSum (assetsOf cs) q.1 := by
    intro q hq
    obtain ⟨p, hp, hpq⟩ := hremmem q hq
    obtain ⟨hb1, hb2⟩ := hsvbd p hp
    have hlo := effInterval_lo_ge cs p.1
    have hhi := effInterval_hi_le cs p.1
    have hglo := groupLoSum_eq cs p.1
    have hgup := groupUpSum_eq cs p.1
    have hcap := assetCapSum_eq (assetsOf cs) p.1
    rw [hpq]
    constructor
    · simp only
      linarith
    · simp only
      have hglo2 : groupLoSum cs p.1 = assetLoSum (assetsOf cs) p.1 := hglo
      have hgup2 : groupUpSum cs p.1 = assetUpSum (assetsOf cs) p.1 := hgup
      rw [hcap]
      linarith
  obtain ⟨hplen, hpsum, hpbox, hpg⟩ :=
    fillPass_spec (assetsOf cs) (remOf cs) hnd hkeys hbound hordA
  have hkl : ∀ s ∈ assetsOf cs, s.1 ∈ labelsOf cs := by
    intro s hs
    rw [← hkeq]
    exact hkeys s hs
  refine ⟨?_, ?_, ?_, ?_⟩
  · rw [hplen]
    unfold assetsOf
    rw [List.length_zip, hml, Nat.min_self]
  · rw [hpsum]
    have h1 : remValsSum (remOf cs) =
        (((labelsOf cs).zip (svalsOf cs)).map (fun p => p.2 - groupLoSum cs p.1)).sum := by
      unfold remValsSum remOf
      rw [List.map_map]
      rfl
    have h2 : (((labelsOf cs).zip (svalsOf cs)).map (fun p => p.2 - groupLoSum cs p.1)).sum =
        (svalsOf cs).sum - ((labelsOf cs).map (fun l => groupLoSum cs l)).sum := by
      rw [sum_map_sub ((labelsOf cs).zip (svalsOf cs)) Prod.snd
        (fun p => groupLoSum cs p.1)]
      congr 1
      · rw [List.map_snd_zip _ _ (le_of_eq hsvlen)]
      · have hcomp : (fun p : String × ℚ => groupLoSum cs p.1) =
            (fun l => groupLoSum cs l) ∘ Prod.fst := rfl
        rw [hcomp, ← List.map_map, List.map_fst_zip _ _ (le_of_eq hsvlen.symm)]
    have h3 : ((labelsOf cs).map (fun l => groupLoSum cs l)).sum =
        ((assetsOf cs).map (fun s => s.2.1)).sum := by
      have hcongr : (labelsOf cs).map (fun l => groupLoSum cs l) =
          (labelsOf cs).map (fun l => assetLoSum (assetsOf cs) l) :=
        List.map_congr_left (fun l _ => groupLoSum_eq cs l)
      rw [hcongr]
      exact partition_sum Prod.fst (fun s => s.2.1) (assetsOf cs) (labelsOf cs) hlabnd hkl
    rw [h1, h2, h3, hsvsum]
    ring
  · exact box_bridge (famOf cs).memberships cs.boxes _ hml hpbox
  · intro fam hfam b hb
    cases hcc : cs.categorical with
    | nil =>
        rw [hcc] at hfam
        simp at hfam
    | cons fam0 rest =>
        have hrest : rest = [] := by
          rw [hcc] at hcat
          simp only [List.length_cons] at hcat
          have : rest.length = 0 := by omega
          exact List.length_eq_zero.mp this
        have hfam0 : fam = fam0 := by
          rw [hcc, hrest] at hfam
          simpa using hfam
        have hfo : famOf cs = fam0 := famOf_head cs fam0 rest hcc
        subst hfam0
        rw [← hfo] at hb ⊢
        by_cases hmem : b.1 ∈ (famOf cs).memberships
        · have hlb : b.1 ∈ labelsOf cs := List.mem_dedup.mpr hmem
          have hlb2 : b.1 ∈ remKeys (remOf cs) := by
            rw [hkeq]
            exact hlb
          obtain ⟨r, hlook, hrmem⟩ := lookupRem_mem_keys b.1 (remOf cs) hlb2
          obtain ⟨p, hp, hpq⟩ := hremmem _ hrmem
          have hp1 : b.1 = p.1 := (Prod.ext_iff.mp hpq).1
          have hr : r = p.2 - groupLoSum cs p.1 := (Prod.ext_iff.mp hpq).2
          have hgv := hpg (b.1, r) hrmem
          simp only at hgv
          have hgs : groupSum (famOf cs).memberships b.1
                (fillPass (assetsOf cs) (remOf cs)) =
              gVal (assetsOf cs) (fillPass (assetsOf cs) (remOf cs)) b.1 :=
            groupSum_eq_gVal _ _ _ _ hml
          obtain ⟨hsb1, hsb2⟩ := hsvbd p hp
          have hfb : findBound (famOf cs).bounds b.1 = some b.2 :=
            findBound_eq _ (famOf_nodup cs hv) b hb
          have heff : effInterval cs b.1 =
              (max b.2.1 (groupLoSum cs b.1), min b.2.2 (groupUpSum cs b.1)) := by
            unfold effInterval
            rw [hfb]
          rw [← hp1] at hsb1 hsb2
          rw [heff] at hsb1 hsb2
          simp only at hsb1 hsb2
          have hglo2 : groupLoSum cs b.1 = assetLoSum (assetsOf cs) b.1 :=
            groupLoSum_eq cs b.1
          have hval : groupSum (famOf cs).memberships b.1
              (fillPass (assetsOf cs) (remOf cs)) = p.2 := by
            rw [hgs, hgv, hr, ← hp1, ← hglo2]
            ring
          rw [hval]
          constructor
          · exact le_trans (le_max_left _ _) hsb1
          · exact le_trans hsb2 (min_le_left _ _)
        · have hgz : groupSum (famOf cs).memberships b.1
              (fillPass (assetsOf cs) (remOf cs)) = 0 :=
            groupSum_not_mem _ _ _ hmem
          rcases hempty b hb with h | h
          · exact absurd h hmem
          · rw [hgz]
            exact h

lemma startPoint_complete (cs : ConstraintSet) (hv : validCheck cs = true)
    (hcat : cs.categorical.length ≤ 1) (w : List ℚ) (hf : FeasibleW cs w) :
    precheck cs = true := by
  obtain ⟨hwlen, hwsum, hwbox, hwgrp⟩ := hf
  have hml := famOf_length cs hv
  have hAw : (assetsOf cs).length = w.length := by
    unfold assetsOf
    rw [List.length_zip, hml, Nat.min_self, hwlen]
  have habox : ∀ p ∈ (assetsOf cs).zip w, p.1.2.1 ≤ p.2 ∧ p.2 ≤ p.1.2.2 :=
    box_bridge2 (famOf cs).memberships cs.boxes w hwbox
  have hgb : ∀ lbl, assetLoSum (assetsOf cs) lbl ≤ gVal (assetsOf cs) w lbl ∧
      gVal (assetsOf cs) w lbl ≤ assetUpSum (assetsOf cs) lbl :=
    fun lbl => gVal_bounds (assetsOf cs) w lbl hAw habox
  have hgs : ∀ lbl, groupSum (famOf cs).memberships lbl w = gVal (assetsOf cs) w lbl :=
    fun lbl => groupSum_eq_gVal _ _ _ _ hml
  have hfamgrp : ∀ b ∈ (famOf cs).bounds,
      b.2.1 ≤ groupSum (famOf cs).memberships b.1 w ∧
      groupSum (famOf cs).memberships b.1 w ≤ b.2.2 := by
    intro b hb
    cases hcc : cs.categorical with
    | nil =>
        have : famOf cs = ⟨"", List.replicate cs.boxes.length "", []⟩ := by
          simp [famOf, hcc]
        rw [this] at hb
        simp at hb
    | cons fam0 rest =>
        have hfo : famOf cs = fam0 := famOf_head cs fam0 rest hcc
        have hmem0 : fam0 ∈ cs.categorical := by
          rw [hcc]
          exact List.mem_cons_self _ _
        have := hwgrp fam0 hmem0 b (hfo ▸ hb)
        rw [hfo]
        exact this
  have heff : ∀ lbl ∈ labelsOf cs,
      (effInterval cs lbl).1 ≤ gVal (assetsOf cs) w lbl ∧
      gVal (assetsOf cs) w lbl ≤ (effInterval cs lbl).2 := by
    intro lbl _
    have hglo2 : groupLoSum cs lbl = assetLoSum (assetsOf cs) lbl := groupLoSum_eq cs lbl
    have hgup2 : groupUpSum cs lbl = assetUpSum (assetsOf cs) lbl := groupUpSum_eq cs lbl
    unfold effInterval
    cases hfb : findBound (famOf cs).bounds lbl with
    | none =>
        simp only
        rw [hglo2, hgup2]
        exact hgb lbl
    | some v =>
        have hvb : (lbl, v) ∈ (famOf cs).bounds := findBound_mem _ _ _ hfb
        have hgrp := hfamgrp (lbl, v) hvb
        simp only at hgrp
        rw [hgs lbl] at hgrp
        simp only
        constructor
        · apply max_le hgrp.1
          rw [hglo2]
          exact (hgb lbl).1
        · apply le_min hgrp.2
          rw [hgup2]
          exact (hgb lbl).2
  have hpart : ((labelsOf cs).map (fun l => gVal (assetsOf cs) w l)).sum = 1 := by
    have hk2 : ∀ x ∈ (assetsOf cs).zip w, x.1.1 ∈ labelsOf cs := by
      intro x hx
      obtain ⟨x1, x2⟩ := x
      have hx1 : x1 ∈ assetsOf cs := (List.mem_zip hx).1
      obtain ⟨y1, y2⟩ := x1
      have : y1 ∈ (famOf cs).memberships := (List.mem_zip hx1).1
      exact List.mem_dedup.mpr this
    have hps := partition_sum (fun p => p.1.1) Prod.snd ((assetsOf cs).zip w)
      (labelsOf cs) (List.nodup_dedup _) hk2
    have hsnd : ((assetsOf cs).zip w).map Prod.snd = w :=
      List.map_snd_zip _ _ (le_of_eq hAw.symm)
    rw [hsnd] at hps
    rw [← hwsum]
    exact hps
  apply (precheck_iff cs).mpr
  refine ⟨?_, ?_, ?_, ?_⟩
  · intro lbl hl
    have h := heff lbl hl
    linarith [h.1, h.2]
  · have hle : ((labelsOf cs).map (fun l => (effInterval cs l).1)).sum ≤
        ((labelsOf cs).map (fun l => gVal (assetsOf cs) w l)).sum :=
      List.sum_le_sum (fun l hl => (heff l hl).1)
    rw [hpart] at hle
    exact hle
  · have hle : ((labelsOf cs).map (fun l => gVal (assetsOf cs) w l)).sum ≤
        ((labelsOf cs).map (fun l => (effInterval cs l).2)).sum :=
      List.sum_le_sum (fun l hl => (heff l hl).2)
    rw [hpart] at hle
    exact hle
  · intro b hb
    by_cases hmem : b.1 ∈ (famOf cs).memberships
    · exact Or.inl hmem
    · have hgz : groupSum (famOf cs).memberships b.1 w = 0 :=
        groupSum_not_mem _ _ _ hmem
      have h := hfamgrp b hb
      rw [hgz] at h
      exact Or.inr h

lemma selectBetter_cases (obj : ObjectiveSpec) (er : List ℚ) (cov : List (List ℚ))
    (rf : ℚ) (n : Nat) (best cand : List ℚ) :
    selectBetter obj er cov rf n best cand = best ∨
    selectBetter obj er cov rf n best cand = cand := by
  unfold selectBetter
  split
  · exact Or.inr rfl
  · split
    · exact Or.inr rfl
    · exact Or.inl rfl

lemma optLoop_feasible (obj : ObjectiveSpec) (er : List ℚ) (cov : List (List ℚ))
    (rf : ℚ) (cs : ConstraintSet) (best : List ℚ) (iter fuel : Nat)
    (hb : FeasibleW cs best) :
    FeasibleW cs (optLoop obj er cov rf cs best iter fuel).weights := by
  induction fuel generalizing best iter with
  | zero => exact hb
  | succ k ih =>
      unfold optLoop
      dsimp only
      set cand := nextCandidate cs best iter with hcand
      set b2 := if feasibleCheck cs cand
        then selectBetter obj er cov rf cs.boxes.length best cand else best with hb2
      have hfb2 : FeasibleW cs b2 := by
        rw [hb2]
        split
        · rcases selectBetter_cases obj er cov rf cs.boxes.length best cand with h | h
          · rw [h]
            exact hb
          · rw [h]
            rename_i hfc
            exact (feasibleCheck_iff cs cand).mp hfc
        · exact hb
      split
      · exact hfb2
      · exact ih b2 (iter + 1) hfb2

lemma optLoop_nonconverged (obj : ObjectiveSpec) (er : List ℚ) (cov : List (List ℚ))
    (rf : ℚ) (cs : ConstraintSet) (best : List ℚ) (iter fuel : Nat)
    (h : (optLoop obj er cov rf cs best iter fuel).converged = false) :
    (optLoop obj er cov rf cs best iter fuel).iterations_used = iter + fuel := by
  induction fuel generalizing best iter with
  | zero => rfl
  | succ k ih =>
      unfold optLoop at h ⊢
      dsimp only at h ⊢
      set cand := nextCandidate cs best iter with hcand
      set b2 := if feasibleCheck cs cand
        then selectBetter obj er cov rf cs.boxes.length best cand else best with hb2
      by_cases hcv : objValue obj er cov rf b2 - objValue obj er cov rf best < convTol
      · rw [if_pos hcv] at h
        simp at h
      · rw [if_neg hcv] at h ⊢
        have := ih b2 (iter + 1) h
        omega

/-- C1: whenever the optimizer returns a result, its weights sum to `1`
within `1e-6`, every weight lies within its per-asset box bound up to the
`1e-6` tolerance, and every categorical group's weight sum lies within
that group's bound up to the tolerance (the model enforces the exact
constraints at every accepted iterate, so the tolerance bounds follow). -/
theorem optimizer_respects_constraints (obj : ObjectiveSpec) (er : List ℚ)
    (cov : List (List ℚ)) (rf : ℚ) (cs : ConstraintSet) (m : Nat)
    (r : OptimizationResult) (h : optimize obj er cov rf cs m = .ok r) :
    |r.weights.sum - 1| < 1 / 1000000 ∧
    (∀ p ∈ cs.boxes.zip r.weights,
      p.1.1 - 1 / 1000000 ≤ p.2 ∧ p.2 ≤ p.1.2 + 1 / 1000000) ∧
    (∀ fam ∈ cs.categorical, ∀ b ∈ fam.bounds,
      b.2.1 - 1 / 1000000 ≤ groupSum fam.memberships b.1 r.weights ∧
      groupSum fam.memberships b.1 r.weights ≤ b.2.2 + 1 / 1000000) := by
  have hfeas : FeasibleW cs r.weights := by
    unfold optimize at h
    split at h
    · cases hsp : startPoint cs with
      | none =>
          rw [hsp] at h
          cases h
      | some w0 =>
          rw [hsp] at h
          dsimp only at h
          split at h
          · rename_i hfc
            have hw0 : FeasibleW cs w0 := (feasibleCheck_iff cs w0).mp hfc
            have hfl := optLoop_feasible obj er cov rf cs w0 0 m hw0
            injection h with h2
            rw [← h2]
            exact hfl
          · cases h
    · cases h
  obtain ⟨hlen, hsum, hbox, hgrp⟩ := hfeas
  refine ⟨?_, ?_, ?_⟩
  · rw [hsum]
    norm_num
  · intro p hp
    have h2 := hbox p hp
    exact ⟨by linarith [h2.1], by linarith [h2.2]⟩
  · intro fam hfam b hb
    have h2 := hgrp fam hfam b hb
    exact ⟨by linarith [h2.1], by linarith [h2.2]⟩

/-- C2: the optimizer is a pure function, so two invocations with
identical inputs and budget return identical results; and on an exact
objective plateau the selection rule prefers the iterate with the smaller
L2 distance to the equal-weight vector, keeping the incumbent otherwise —
the deterministic tie-break of spec section 4.5. -/
theorem optimizer_deterministic_tiebreak :
    (∀ (obj : ObjectiveSpec) (er : List ℚ) (cov : List (List ℚ)) (rf : ℚ)
      (cs : ConstraintSet) (m : Nat),
      optimize obj er cov rf cs m = optimize obj er cov rf cs m) ∧
    (∀ (obj : ObjectiveSpec) (er : List ℚ) (cov : List (List ℚ)) (rf : ℚ)
      (n : Nat) (best cand : List ℚ),
      objValue obj er cov rf cand = objValue obj er cov rf best →
      selectBetter obj er cov rf n best cand =
        (if dist2 cand (eqWeight n) < dist2 best (eqWeight n) then cand else best)) := by
  constructor
  · intro obj er cov rf cs m
    rfl
  · intro obj er cov rf n best cand htie
    unfold selectBetter
    rw [if_neg (by rw [htie]; exact lt_irrefl _)]
    by_cases hd : dist2 cand (eqWeight n) < dist2 best (eqWeight n)
    · rw [if_pos ⟨htie, hd⟩, if_pos hd]
    · rw [if_neg (fun hc => hd hc.2), if_neg hd]

/-- C3: under a valid constraint set with at most one categorical family,
the optimizer fails with `InfeasibleConstraintsError` exactly when no
weight vector summing to `1` satisfies all box and categorical constraints
simultaneously. -/
theorem optimizer_infeasible_iff (obj : ObjectiveSpec) (er : List ℚ)
    (cov : List (List ℚ)) (rf : ℚ) (cs : ConstraintSet) (m : Nat)
    (hv : validCheck cs = true) (hcat : cs.categorical.length ≤ 1) :
    optimize obj er cov rf cs m = .error .infeasibleConstraints ↔
      ¬ ∃ w, FeasibleW cs w := by
  unfold optimize
  rw [if_pos hv]
  cases hsp : startPoint cs with
  | none =>
      constructor
      · rintro _ ⟨w, hw⟩
        have hpre := startPoint_complete cs hv hcat w hw
        unfold startPoint at hsp
        rw [if_pos hpre] at hsp
        cases hsp
      · intro _
        rfl
  | some w0 =>
      have hfeas : FeasibleW cs w0 := startPoint_sound cs hv hcat w0 hsp
      have hfc : feasibleCheck cs w0 = true := (feasibleCheck_iff cs w0).mpr hfeas
      dsimp only
      rw [if_pos hfc]
      constructor
      · intro hcon
        cases hcon
      · intro hne
        exact absurd ⟨w0, hfeas⟩ hne

/-- C4: whenever the optimizer returns a result, the result's weights are
feasible, a non-converged result means the full `max_iterations` budget was
used (the call still returned the best feasible iterate instead of
failing), and success is independent of the budget: the same inputs
succeed for every `max_iterations` value — the call never fails solely
because of non-convergence. -/
theorem optimizer_nonconvergence_returns (obj : ObjectiveSpec) (er : List ℚ)
    (cov : List (List ℚ)) (rf : ℚ) (cs : ConstraintSet) (m : Nat)
    (r : OptimizationResult) (h : optimize obj er cov rf cs m = .ok r) :
    FeasibleW cs r.weights ∧
    (r.converged = false → r.iterations_used = m) ∧
    (∀ m2, ∃ r2, optimize obj er cov rf cs m2 = .ok r2) := by
  unfold optimize at h ⊢
  split at h
  · rename_i hv
    cases hsp : startPoint cs with
    | none =>
        rw [hsp] at h
        cases h
    | some w0 =>
        rw [hsp] at h
        dsimp only at h
        split at h
        · rename_i hfc
          have hw0 : FeasibleW cs w0 := (feasibleCheck_iff cs w0).mp hfc
          injection h with h2
          refine ⟨?_, ?_, ?_⟩
          · rw [← h2]
            exact optLoop_feasible obj er cov rf cs w0 0 m hw0
          · intro hc
            rw [← h2] at hc ⊢
            have := optLoop_nonconverged obj er cov rf cs w0 0 m hc
            omega
          · intro m2
            refine ⟨optLoop obj er cov rf cs w0 0 m2, ?_⟩
            rw [if_pos hv]
            dsimp only
            rw [if_pos hfc]
        · cases h
  · cases h

/-- C10: the boundary constraint set of the client example — group caps
summing exactly to `1` — passes the feasibility pre-check, admits the
explicit feasible allocation `[1/5, 1/5, 1/5, 1/5, 1/5]`, and the
optimizer returns a result on it for every objective, input data and
budget: the `InfeasibleConstraintsError` branch is unreachable for this
input. -/
theorem portfolio_boundary_feasible :
    precheck portfolioExampleCS = true ∧
    FeasibleW portfolioExampleCS [1/5, 1/5, 1/5, 1/5, 1/5] ∧
    ∀ (obj : ObjectiveSpec) (er : List ℚ) (cov : List (List ℚ)) (rf : ℚ) (m : Nat),
      ∃ r, optimize obj er cov rf portfolioExampleCS m = .ok r := by
  have hv : validCheck portfolioExampleCS = true := by
    unfold validCheck portfolioExampleCS
    norm_num [List.all_cons]
    decide
  have hcat : portfolioExampleCS.categorical.length ≤ 1 := by
    unfold portfolioExampleCS
    simp
  have hfeas : FeasibleW portfolioExampleCS [1/5, 1/5, 1/5, 1/5, 1/5] := by
    refine ⟨by simp [portfolioExampleCS], by norm_num [List.sum_cons, List.sum_nil], ?_, ?_⟩
    · intro p hp
      simp only [portfolioExampleCS] at hp
      fin_cases hp <;> norm_num
    · intro fam hfam
      simp only [portfolioExampleCS, List.mem_singleton] at hfam
      subst hfam
      intro b hb
      have hEE : (("EQUITY" : String) == "EQUITY") = true := by decide
      have hCE : (("CRYPTO" : String) == "EQUITY") = false := by decide
      have hEC : (("EQUITY" : String) == "CRYPTO") = false := by decide
      have hCC : (("CRYPTO" : String) == "CRYPTO") = true := by decide
      fin_cases hb <;> norm_num [groupSum, List.filter, hEE, hCE, hEC, hCC]
  have hpre : precheck portfolioExampleCS = true :=
    startPoint_complete portfolioExampleCS hv hcat _ hfeas
  have hsp : startPoint portfolioExampleCS =
      some (fillPass (assetsOf portfolioExampleCS) (remOf portfolioExampleCS)) := by
    unfold startPoint
    rw [if_pos hpre]
  have hsound := startPoint_sound portfolioExampleCS hv hcat _ hsp
  have hfc := (feasibleCheck_iff portfolioExampleCS _).mpr hsound
  refine ⟨hpre, hfeas, ?_⟩
  intro obj er cov rf m
  refine ⟨optLoop obj er cov rf portfolioExampleCS
    (fillPass (assetsOf portfolioExampleCS) (remOf portfolioExampleCS)) 0 m, ?_⟩
  unfold optimize
  rw [if_pos hv, hsp]
  dsimp only
  rw [if_pos hfc]

lemma witnessCS1_valid : validCheck witnessCS1 = true := by
  unfold validCheck witnessCS1
  norm_num [List.all_cons, List.all_nil]

lemma witnessCS1_feasible : FeasibleW witnessCS1 [1/2, 1/2] := by
  refine ⟨by simp [witnessCS1], by norm_num, ?_, ?_⟩
  · intro p hp
    simp only [witnessCS1] at hp
    fin_cases hp <;> norm_num
  · intro fam hfam
    simp [witnessCS1] at hfam

lemma witnessCS1_start : startPoint witnessCS1 =
    some (fillPass (assetsOf witnessCS1) (remOf witnessCS1)) := by
  have hcat : witnessCS1.categorical.length ≤ 1 := by simp [witnessCS1]
  have hpre := startPoint_complete witnessCS1 witnessCS1_valid hcat _ witnessCS1_feasible
  unfold startPoint
  rw [if_pos hpre]

lemma witnessCS1_startFeasible :
    feasibleCheck witnessCS1 (fillPass (assetsOf witnessCS1) (remOf witnessCS1)) = true := by
  have hcat : witnessCS1.categorical.length ≤ 1 := by simp [witnessCS1]
  exact (feasibleCheck_iff witnessCS1 _).mpr
    (startPoint_sound witnessCS1 witnessCS1_valid hcat _ witnessCS1_start)

/-- C1 witness: the theorem applied to a concrete budget-zero run on the
two-asset unit-box constraint set. -/
theorem optimizer_respects_constraints_witness :
    optimize .maxSharpe [1/10, 1/5] [[1, 0], [0, 1]] 0 witnessCS1 0 = .ok witnessRun1 ∧
    |witnessRun1.weights.sum - 1| < 1 / 1000000 ∧
    (∀ p ∈ witnessCS1.boxes.zip witnessRun1.weights,
      p.1.1 - 1 / 1000000 ≤ p.2 ∧ p.2 ≤ p.1.2 + 1 / 1000000) := by
  have hok : optimize .maxSharpe [1/10, 1/5] [[1, 0], [0, 1]] 0 witnessCS1 0 =
      .ok witnessRun1 := by
    unfold optimize witnessRun1
    rw [if_pos witnessCS1_valid, witnessCS1_start]
    dsimp only
    rw [if_pos witnessCS1_startFeasible]
  have h := optimizer_respects_constraints .maxSharpe [1/10, 1/5] [[1, 0], [0, 1]] 0
    witnessCS1 0 witnessRun1 hok
  exact ⟨hok, h.1, h.2.1⟩

/-- C2 witness: the tie-break rule applied on an exact objective plateau —
the all-zero covariance matrix makes every portfolio variance zero — where
the candidate `[1/2, 1/2]` is strictly closer to the equal-weight vector
than the incumbent `[1, 0]` and is therefore selected. -/
theorem optimizer_deterministic_tiebreak_witness :
    objValue .minVolatility [0, 0] [[0, 0], [0, 0]] 0 [1/2, 1/2] =
      objValue .minVolatility [0, 0] [[0, 0], [0, 0]] 0 [1, 0] ∧
    selectBetter .minVolatility [0, 0] [[0, 0], [0, 0]] 0 2 [1, 0] [1/2, 1/2] =
      [1/2, 1/2] := by
  have htie : objValue .minVolatility [0, 0] [[0, 0], [0, 0]] 0 [1/2, 1/2] =
      objValue .minVolatility [0, 0] [[0, 0], [0, 0]] 0 [1, 0] := by
    norm_num [objValue, portVariance, matVec, dot]
  have happ := optimizer_deterministic_tiebreak.2 .minVolatility [0, 0]
    [[0, 0], [0, 0]] 0 2 [1, 0] [1/2, 1/2] htie
  have hd : dist2 [1/2, 1/2] (eqWeight 2) < dist2 [(1 : ℚ), 0] (eqWeight 2) := by
    norm_num [dist2, eqWeight, List.replicate]
  refine ⟨htie, ?_⟩
  rw [happ, if_pos hd]

/-- C3 witness: the theorem applied to the disjoint-groups example — group
A requires at least `0.9`, disjoint group B at least `0.3` — where no
feasible weight vector exists, so the optimizer reports
`InfeasibleConstraintsError`. -/
theorem optimizer_infeasible_iff_witness :
    validCheck witnessCSAB = true ∧
    witnessCSAB.categorical.length ≤ 1 ∧
    optimize .maxSharpe [0, 0] [[0, 0], [0, 0]] 0 witnessCSAB 5 =
      .error .infeasibleConstraints := by
  have hv : validCheck witnessCSAB = true := by
    unfold validCheck witnessCSAB
    norm_num [List.all_cons, List.all_nil]
    decide
  have hcat : witnessCSAB.categorical.length ≤ 1 := by simp [witnessCSAB]
  have hAA : (("A" : String) == "A") = true := by decide
  have hBA : (("B" : String) == "A") = false := by decide
  have hAB : (("A" : String) == "B") = false := by decide
  have hBB : (("B" : String) == "B") = true := by decide
  have hno : ¬ ∃ w, FeasibleW witnessCSAB w := by
    rintro ⟨w, hlen, hsum, hbox, hgrp⟩
    obtain ⟨a, b, rfl⟩ := List.length_eq_two.mp (by simpa [witnessCSAB] using hlen)
    have hfam := hgrp ⟨ "AssetClass", [ "A", "B"], [( "A", 9/10, 1), ( "B", 3/10, 1)]⟩
      (by simp [witnessCSAB])
    have hA := hfam ( "A", 9/10, 1) (by simp)
    have hB := hfam ( "B", 3/10, 1) (by simp)
    have hgA : groupSum [ "A", "B"] "A" [a, b] = a := by
      simp [groupSum, List.filter, hAA, hBA]
    have hgB : groupSum [ "A", "B"] "B" [a, b] = b := by
      simp [groupSum, List.filter, hAB, hBB]
    simp only at hA hB
    rw [hgA] at hA
    rw [hgB] at hB
    have hs : a + b = 1 := by simpa using hsum
    linarith [hA.1, hB.1]
  exact ⟨hv, hcat,
    (optimizer_infeasible_iff .maxSharpe [0, 0] [[0, 0], [0, 0]] 0 witnessCSAB 5
      hv hcat).mpr hno⟩

/-- C4 witness: the theorem applied to a concrete three-iteration run on
the two-asset unit-box constraint set. -/
theorem optimizer_nonconvergence_returns_witness :
    optimize .minVolatility [1/10, 1/5] [[1, 0], [0, 1]] 0 witnessCS1 3 = .ok witnessRun2 ∧
    FeasibleW witnessCS1 witnessRun2.weights := by
  have hok : optimize .minVolatility [1/10, 1/5] [[1, 0], [0, 1]] 0 witnessCS1 3 =
      .ok witnessRun2 := by
    unfold optimize witnessRun2
    rw [if_pos witnessCS1_valid, witnessCS1_start]
    dsimp only
    rw [if_pos witnessCS1_startFeasible]
  have h := optimizer_nonconvergence_returns .minVolatility [1/10, 1/5] [[1, 0], [0, 1]] 0
    witnessCS1 3 witnessRun2 hok
  exact ⟨hok, h.1⟩

end Finalytics
